import Mathlib

/-
Verification development for the table-hunting engine of stext-table.c.

The data model and the operations below are shallow embeddings of the C
source.  Floating point coordinates are modelled by rationals; machine
ints holding the small counters of the cell matrix are modelled by Nat
(they are only ever incremented), winding counts by Int (they may dip
below zero).  Geometry helpers (rect intersection, union, quad bounds)
live outside this repository and are modelled from the specification.
-/

namespace StextTable

/-- A 2-d point with rational coordinates (models fz_point). -/
structure Pt where
  x : Rat
  y : Rat
deriving DecidableEq, Repr

/-- An axis-aligned quad, four corners (models fz_quad). -/
structure Quad where
  ul : Pt
  ur : Pt
  ll : Pt
  lr : Pt
deriving DecidableEq, Repr

/-- An axis-aligned rectangle (models fz_rect). -/
structure Rect where
  x0 : Rat
  y0 : Rat
  x1 : Rat
  y1 : Rat
deriving DecidableEq, Repr

/-- A character of a text line: unicode scalar plus its quad
(models fz_stext_char; a space has code 32). -/
structure Chr where
  c : Nat
  quad : Quad
deriving DecidableEq, Repr

/-- A text line: bounding box, writing mode, direction, ordered characters
(models fz_stext_line). -/
structure Line where
  bbox : Rect
  wmode : Nat
  dir : Pt
  chars : List Chr
deriving DecidableEq, Repr

/-- Standard structure tags relevant to the table hunt
(models the fz_structure values used here). -/
inductive STag where
  | table
  | tr
  | td
  | other
deriving DecidableEq, Repr

/-- Modelled from the spec: FZ_MAX_INF_RECT, the large coordinate used by
the geometry library for the inverted empty rectangle. -/
def infCoord : Rat := 2147483520

/-- A block of the page tree (models fz_stext_block).  A struct block
carries its tag, raw tag string, sibling index and its own child list. -/
inductive Block where
  | text (bbox : Rect) (lines : List Line)
  | vector (bbox : Rect)
  | strukt (bbox : Rect) (tag : STag) (raw : String) (idx : Nat) (children : List Block)
  | grid (bbox : Rect)

/-- The bounding box stored on a block. -/
def Block.bbox : Block → Rect
  | .text b _ => b
  | .vector b => b
  | .strukt b _ _ _ _ => b
  | .grid b => b

/-- Modelled from the spec: fz_empty_rect, the inverted empty rectangle
used to seed bounding-box unions. -/
def fz_empty_rect : Rect := ⟨infCoord, infCoord, -infCoord, -infCoord⟩

/-- Modelled from the spec: the geometry library's emptiness test. -/
def fz_is_empty_rect (r : Rect) : Bool :=
  r.x0 ≥ r.x1 ∨ r.y0 ≥ r.y1

/-- Modelled from the spec: bounding-box intersection (corner-wise max/min). -/
def fz_intersect_rect (a b : Rect) : Rect :=
  ⟨max a.x0 b.x0, max a.y0 b.y0, min a.x1 b.x1, min a.y1 b.y1⟩

/-- Modelled from the spec: bounding-box union; an empty argument is the
identity. -/
def fz_union_rect (a b : Rect) : Rect :=
  if fz_is_empty_rect a then b
  else if fz_is_empty_rect b then a
  else ⟨min a.x0 b.x0, min a.y0 b.y0, max a.x1 b.x1, max a.y1 b.y1⟩

/-- Modelled from the spec: the bounding rectangle of a quad. -/
def fz_rect_from_quad (q : Quad) : Rect :=
  ⟨min (min q.ul.x q.ur.x) (min q.ll.x q.lr.x),
   min (min q.ul.y q.ur.y) (min q.ll.y q.lr.y),
   max (max q.ul.x q.ur.x) (max q.ll.x q.lr.x),
   max (max q.ul.y q.ur.y) (max q.ll.y q.lr.y)⟩

/-- One cell record of the cell matrix (models cell_t): counters for the
drawn line on the top edge, the drawn line on the left edge, content
crossing those two edges, and content anywhere in the cell. -/
structure cell_t where
  h_line : Nat
  v_line : Nat
  h_crossed : Nat
  v_crossed : Nat
  full : Nat
deriving DecidableEq, Repr

/-- The zero cell (new_cells fills the matrix with it). -/
def cell0 : cell_t := ⟨0, 0, 0, 0, 0⟩

/-- The cell matrix (models cells_t): a w*h flat array of cell_t. -/
structure cells_t where
  w : Nat
  h : Nat
  cell : Nat → cell_t

/-- get_cell from the source: flat index x + y * w. -/
def get_cell (c : cells_t) (x y : Nat) : cell_t :=
  c.cell (x + y * c.w)

/-- new_cells from the source: a zeroed w*h matrix. -/
def new_cells (w h : Nat) : cells_t :=
  ⟨w, h, fun _ => cell0⟩

/-- Point update of the flat cell array. -/
def upd_cell (c : cells_t) (i : Nat) (f : cell_t → cell_t) : cells_t :=
  ⟨c.w, c.h, fun j => if j = i then f (c.cell j) else c.cell j⟩

/-- One entry of a grid position list (models the entries of
fz_stext_grid_positions): the current position estimate, the ambiguity
window, the winding uncertainty and the reinforcement count. -/
structure GEntry where
  pos : Rat
  min : Rat
  max : Rat
  uncertainty : Int
  reinforcement : Nat
deriving DecidableEq, Repr

/-- A grid position list (models fz_stext_grid_positions). -/
structure GridPositions where
  list : List GEntry
  max_uncertainty : Int
deriving DecidableEq, Repr

/-- The walker state threaded through grid analysis
(models grid_walker_data). -/
structure gwd where
  cells : cells_t
  xpos : GridPositions
  ypos : GridPositions

/-- The reinforcement update performed on a hit entry: bump the
reinforcement count and move pos to the running mean (pos*r + x)/(r+1),
r being the old count. -/
def reinforce (g : GEntry) (x : Rat) : GEntry :=
  { g with reinforcement := g.reinforcement + 1,
           pos := (g.pos * (g.reinforcement : Rat) + x) / ((g.reinforcement : Rat) + 1) }

/-- The scan loop of find_grid_pos_with_reinforcement.  The Option Rat
argument is the max field of the previous entry (present exactly when the
C loop index i is positive).  Returns the index found relative to the
current sublist (so some (-1) denotes the previous entry, as produced by
the expand path) together with the updated sublist; none models the C
result -1. -/
def fgpr_aux (x : Rat) (expand : Bool) : List GEntry → Option Rat → Option Int × List GEntry
  | [], _ => (none, [])
  | g :: t, prevmax =>
    if x > g.max then
      let r := fgpr_aux x expand t (some g.max)
      (r.1.map (· + 1), g :: r.2)
    else if x < g.min then
      match prevmax with
      | some pm =>
        if expand then
          (if x < (g.min + pm) / 2 then some (-1) else some 0, g :: t)
        else (none, g :: t)
      | none => (none, g :: t)
    else
      (some 0, reinforce g x :: t)

/-- find_grid_pos_with_reinforcement from the source: scan for the first
window containing x; outside every window return -1, in a gap with
expand set snap to the nearer neighbour, on a hit reinforce the entry. -/
def find_grid_pos_with_reinforcement (p : GridPositions) (x : Rat) (expand : Bool) :
    Int × GridPositions :=
  let r := fgpr_aux x expand p.list none
  (r.1.getD (-1), { p with list := r.2 })

/-- Helper for find_cell: index of the first entry with x < pos, if any. -/
def find_cell_aux (x : Rat) : List GEntry → Option Nat
  | [] => none
  | g :: t => if x < g.pos then some 0 else (find_cell_aux x t).map (· + 1)

/-- find_cell from the source: the index i such that pos[i] <= x < pos[i+1],
with the top boundary included (x equal to the last pos returns len-1)
and -1 outside. -/
def find_cell (p : GridPositions) (x : Rat) : Int :=
  match find_cell_aux x p.list with
  | some i => (i : Int) - 1
  | none =>
    match p.list.getLast? with
    | some g => if x = g.pos then (p.list.length : Int) - 1 else -1
    | none => -1

/-- Apply f to the flat cells at indices idx 0, ..., idx (n-1). -/
def bump_range (c : cells_t) (f : cell_t → cell_t) (idx : Nat → Nat) (n : Nat) : cells_t :=
  (List.range n).foldl (fun acc k => upd_cell acc (idx k) f) c

/-- add_h_line from the source.  Looks up both endpoints on the X axis
with expand set, the mid y on the Y axis without, and on success bumps
h_line on every cell of the run.  Returns the C functions failure flag
(true = failed) and the updated state; the reinforcement side effects of
the look-ups happen in all cases. -/
def add_h_line (gd : gwd) (x0 x1 y0 y1 : Rat) : Bool × gwd :=
  let f0 := find_grid_pos_with_reinforcement gd.xpos x0 true
  let f1 := find_grid_pos_with_reinforcement f0.2 x1 true
  let y := (y0 + y1) / 2
  let f2 := find_grid_pos_with_reinforcement gd.ypos y false
  let gd1 : gwd := { gd with xpos := f1.2, ypos := f2.2 }
  if f0.1 < 0 ∨ f1.1 < 0 ∨ f2.1 < 0 ∨ f0.1 ≥ f1.1 then (true, gd1)
  else
    let s := f0.1.toNat
    let e := f1.1.toNat
    let yn := f2.1.toNat
    let cs := bump_range gd1.cells (fun c => { c with h_line := c.h_line + 1 })
      (fun k => (s + k) + yn * gd1.cells.w) (e - s)
    (false, { gd1 with cells := cs })

/-- add_v_line from the source, the transposed twin of add_h_line. -/
def add_v_line (gd : gwd) (y0 y1 x0 x1 : Rat) : Bool × gwd :=
  let f0 := find_grid_pos_with_reinforcement gd.ypos y0 true
  let f1 := find_grid_pos_with_reinforcement f0.2 y1 true
  let x := (x0 + x1) / 2
  let f2 := find_grid_pos_with_reinforcement gd.xpos x false
  let gd1 : gwd := { gd with ypos := f1.2, xpos := f2.2 }
  if f0.1 < 0 ∨ f1.1 < 0 ∨ f2.1 < 0 ∨ f0.1 ≥ f1.1 then (true, gd1)
  else
    let s := f0.1.toNat
    let e := f1.1.toNat
    let xn := f2.1.toNat
    let cs := bump_range gd1.cells (fun c => { c with v_line := c.v_line + 1 })
      (fun k => xn + (s + k) * gd1.cells.w) (e - s)
    (false, { gd1 with cells := cs })

/-- First stage of the rectangle branch of walk_grid_lines: the
horizontal rule at y0. -/
def rect_h0 (gd : gwd) (r : Rect) : Bool × gwd :=
  add_h_line gd r.x0 r.x1 r.y0 r.y0

/-- Second stage: the horizontal rule at y1. -/
def rect_h1 (gd : gwd) (r : Rect) : Bool × gwd :=
  add_h_line (rect_h0 gd r).2 r.x0 r.x1 r.y1 r.y1

/-- Third stage: the vertical rule at x0. -/
def rect_v0 (gd : gwd) (r : Rect) : Bool × gwd :=
  add_v_line (rect_h1 gd r).2 r.y0 r.y1 r.x0 r.x0

/-- Fourth stage: the vertical rule at x1. -/
def rect_v1 (gd : gwd) (r : Rect) : Bool × gwd :=
  add_v_line (rect_v0 gd r).2 r.y0 r.y1 r.x1 r.x1

/-- The rectangle branch of walk_grid_lines: a vector block that is
neither a thin horizontal nor a thin vertical line is registered as two
horizontal rules at y0 and y1 and two vertical rules at x0 and x1, in
that order, and the failure flags are combined exactly as in the source
(failed2 = h0 | h1; failed = v0 | v1; failed &= failed2). -/
def walk_rect (gd : gwd) (r : Rect) : Bool × gwd :=
  (((rect_v0 gd r).1 || (rect_v1 gd r).1) && ((rect_h0 gd r).1 || (rect_h1 gd r).1),
   (rect_v1 gd r).2)

/-- The retry loop of walk_grid_lines for a wide rule: successive vector
blocks with the same y0/y1 are folded into the rectangle while the
source's gap condition (bbox.x0 < r.x1 + 1 or bbox.x1 > r.x0 - 1) holds;
returns the grown rectangle and the remaining blocks. -/
def coalesce_h : Rect → List Block → Rect × List Block
  | r, [] => (r, [])
  | r, b :: rest =>
    match b with
    | .vector bb =>
      if bb.y0 = r.y0 ∧ bb.y1 = r.y1 ∧ (bb.x0 < r.x1 + 1 ∨ bb.x1 > r.x0 - 1) then
        coalesce_h (fz_union_rect r bb) rest
      else (r, b :: rest)
    | _ => (r, b :: rest)

/-- The retry loop of walk_grid_lines for a tall rule, the transposed
twin of coalesce_h. -/
def coalesce_v : Rect → List Block → Rect × List Block
  | r, [] => (r, [])
  | r, b :: rest =>
    match b with
    | .vector bb =>
      if bb.x0 = r.x0 ∧ bb.x1 = r.x1 ∧ (bb.y0 < r.y1 + 1 ∨ bb.y1 > r.y0 - 1) then
        coalesce_v (fz_union_rect r bb) rest
      else (r, b :: rest)
    | _ => (r, b :: rest)

/-- The merged cell written by merge_column at the join: full and
h_crossed combine by boolean OR (the C || yields 0 or 1), h_line,
v_crossed and v_line come from the left cell. -/
def merge_cell_lr (a b : cell_t) : cell_t :=
  { h_line := a.h_line
    v_line := a.v_line
    h_crossed := if a.h_crossed ≠ 0 ∨ b.h_crossed ≠ 0 then 1 else 0
    v_crossed := a.v_crossed
    full := if a.full ≠ 0 ∨ b.full ≠ 0 then 1 else 0 }

/-- The cell-matrix part of merge_column: per row, columns left of x are
copied, column x becomes the merge of old columns x and x+1, and columns
right of x shift left by one; the width drops by one. -/
def merge_column_cells (c : cells_t) (x : Nat) : cells_t :=
  ⟨c.w - 1, c.h, fun i =>
    let y := i / (c.w - 1)
    let cx := i % (c.w - 1)
    if cx < x then c.cell (cx + y * c.w)
    else if cx = x then merge_cell_lr (c.cell (x + y * c.w)) (c.cell (x + 1 + y * c.w))
    else c.cell (cx + 1 + y * c.w)⟩

/-- The position-list shrink shared by merge_column and merge_row: when
x < len - 2 the entries above x+1 are shifted down one slot and the
length drops (deleting entry x+1); otherwise only the length drops. -/
def delete_pos_entry (p : GridPositions) (x : Nat) : GridPositions :=
  if x < p.list.length - 2 then
    { p with list := p.list.take (x + 1) ++ p.list.drop (x + 2) }
  else
    { p with list := p.list.dropLast }

/-- merge_column from the source: shrink the cell matrix and delete the
X divider entry x+1. -/
def merge_column (gd : gwd) (x : Nat) : gwd :=
  { gd with cells := merge_column_cells gd.cells x, xpos := delete_pos_entry gd.xpos x }

/-- The per-pair test of the merge_columns scan, written with the exact
break/continue chain of the source (a is the left cell, b the right). -/
def col_pair_ok (a b : cell_t) : Bool :=
  if b.v_line ≠ 0 then false
  else if a.full = 0 ∨ b.full = 0 then true
  else if decide (a.h_line ≠ 0) ≠ decide (b.h_line ≠ 0) then false
  else if a.full ≠ 0 ∧ b.full ≠ 0 ∧ b.v_crossed ≠ 0 then true
  else false

/-- The inner loop of merge_columns: column x merges with column x+1
exactly when every row y < h-1 passes the pair test. -/
def merge_col_check (c : cells_t) (x : Nat) : Bool :=
  (List.range (c.h - 1)).all fun y => col_pair_ok (get_cell c x y) (get_cell c (x + 1) y)

/-- The scan of merge_columns, x running from w-3 down to 0 (the fuel
n+1 stands for current column n). -/
def merge_columns_go : gwd → Nat → gwd
  | gd, 0 => gd
  | gd, n + 1 =>
    let gd2 := if merge_col_check gd.cells n then merge_column gd n else gd
    merge_columns_go gd2 n

/-- merge_columns from the source. -/
def merge_columns (gd : gwd) : gwd :=
  merge_columns_go gd (gd.cells.w - 2)

/-- The cell-matrix part of merge_row, translated index-for-index from
the source's pointer arithmetic: the first w-1 cells of row y combine
full and h_crossed with the cell one row below (taking the lower value
only when the upper one is zero, all other fields untouched), then a
single memcpy shifts everything from flat index y*w + w - 1 up to
w*(h-1) - 2 down by one row, guarded by y < h - 2; the final flat cell
of the shrunken matrix is never written. -/
def merge_row_cells (c : cells_t) (y : Nat) : cells_t :=
  ⟨c.w, c.h - 1, fun i =>
    if i < y * c.w then c.cell i
    else if i < y * c.w + (c.w - 1) then
      let s := c.cell i
      let b := c.cell (i + c.w)
      { s with full := if s.full = 0 then b.full else s.full,
               h_crossed := if s.h_crossed = 0 then b.h_crossed else s.h_crossed }
    else
      if y < c.h - 2 ∧ i + 1 < c.w * (c.h - 1) then c.cell (i + c.w) else c.cell i⟩

/-- merge_row from the source: shrink the cell matrix and delete the Y
divider entry y+1. -/
def merge_row (gd : gwd) (y : Nat) : gwd :=
  { gd with cells := merge_row_cells gd.cells y, ypos := delete_pos_entry gd.ypos y }

/-- The per-pair test of the merge_rows scan (a is the upper cell, b the
lower). -/
def row_pair_ok (a b : cell_t) : Bool :=
  if b.h_line ≠ 0 then false
  else if a.full = 0 ∨ b.full = 0 then true
  else if decide (a.v_line ≠ 0) ≠ decide (b.v_line ≠ 0) then false
  else if a.full ≠ 0 ∧ b.full ≠ 0 ∧ b.h_crossed ≠ 0 then true
  else false

/-- The inner loop of merge_rows: row y merges with row y+1 exactly when
every column x < w-1 passes the pair test. -/
def merge_row_check (c : cells_t) (y : Nat) : Bool :=
  (List.range (c.w - 1)).all fun x => row_pair_ok (get_cell c x y) (get_cell c x (y + 1))

/-- The scan of merge_rows, y running from h-3 down to 0. -/
def merge_rows_go : gwd → Nat → gwd
  | gd, 0 => gd
  | gd, n + 1 =>
    let gd2 := if merge_row_check gd.cells n then merge_row gd n else gd
    merge_rows_go gd2 n

/-- merge_rows from the source. -/
def merge_rows (gd : gwd) : gwd :=
  merge_rows_go gd (gd.cells.h - 2)

/-- Matrix transposition of the cell grid: cell (x, y) of the result is
cell (y, x) of the argument. -/
def transpose_cells (c : cells_t) : cells_t :=
  ⟨c.h, c.w, fun i => c.cell ((i / c.h) + (i % c.h) * c.w)⟩

/-- Exchange the horizontal and vertical fields of a cell. -/
def swap_cell (a : cell_t) : cell_t :=
  { h_line := a.v_line
    v_line := a.h_line
    h_crossed := a.v_crossed
    v_crossed := a.h_crossed
    full := a.full }

/-- Pointwise field swap of the cell grid. -/
def swap_cells (c : cells_t) : cells_t :=
  ⟨c.w, c.h, fun i => swap_cell (c.cell i)⟩

/-- Modelled from the spec: "Rows are reduced symmetrically (transposing
X and Y, h_line↔v_line, v_crossed↔h_crossed)" — the row merge that would
be the exact transpose of the column merge. -/
def merge_row_per_spec (c : cells_t) (y : Nat) : cells_t :=
  transpose_cells (swap_cells (merge_column_cells (swap_cells (transpose_cells c)) y))

lemma col_pair_ok_iff (a b : cell_t) :
    col_pair_ok a b = true ↔
      (b.v_line = 0 ∧
        (a.full = 0 ∨ b.full = 0 ∨
          (a.full ≠ 0 ∧ b.full ≠ 0 ∧ b.v_crossed ≠ 0 ∧
            ((a.h_line ≠ 0) ↔ (b.h_line ≠ 0))))) := by
  unfold col_pair_ok
  split_ifs with h1 h2 h3 h4 <;> simp_all <;> tauto

/-- C6: column reduction merges adjacent columns x and x+1 if and only
if for every row y the pair a = (x,y), b = (x+1,y) satisfies b.v_line = 0
and either one of a.full, b.full is zero, or a and b are both full,
b.v_crossed is set and a and b agree on having a horizontal line. -/
theorem merge_columns_condition (c : cells_t) (x : Nat) :
    merge_col_check c x = true ↔
      ∀ y, y < c.h - 1 →
        ((get_cell c (x + 1) y).v_line = 0 ∧
          ((get_cell c x y).full = 0 ∨ (get_cell c (x + 1) y).full = 0 ∨
            ((get_cell c x y).full ≠ 0 ∧ (get_cell c (x + 1) y).full ≠ 0 ∧
              (get_cell c (x + 1) y).v_crossed ≠ 0 ∧
              (((get_cell c x y).h_line ≠ 0) ↔ ((get_cell c (x + 1) y).h_line ≠ 0))))) := by
  unfold merge_col_check
  simp only [List.all_eq_true, List.mem_range, col_pair_ok_iff]

/-- A 2 x 3 cell matrix whose only nonzero entry is v_crossed on cell
(0,1); used to compare row merging with its would-be transpose. -/
def cexC3 : cells_t :=
  ⟨2, 3, fun i => if i = 2 then ⟨0, 0, 0, 1, 0⟩ else cell0⟩

/-- C3 counterexample: merging row 1 into row 0 is not the transpose of
column merging — the transposed merge would OR v_crossed of (0,0) and
(0,1) into the merged cell (giving 1), but merge_row keeps v_crossed of
the upper row (0). -/
theorem merge_row_not_transpose :
    (get_cell (merge_row_cells cexC3 0) 0 0).v_crossed ≠
      (get_cell (merge_row_per_spec cexC3 0) 0 0).v_crossed := by
  decide

/-- C3 amended: merging row y+1 into row y combines full and h_crossed
(not v_crossed), taking the lower cell's value only where the upper one
is zero, over columns x < w-1; h_line, v_line and v_crossed of those
cells stay those of the upper row; the cell (w-1, y) receives the whole
lower cell (w-1, y+1); rows below y+1 shift up, except that the final
cell (w-1, h-2) of the shrunken matrix keeps its stale value. -/
theorem merge_row_characterization (c : cells_t) (y x y2 : Nat)
    (hw : 1 ≤ c.w) (hx : x < c.w) (hy : y + 3 ≤ c.h) (hy2 : y2 < c.h - 1) (hyy : y ≤ y2) :
    get_cell (merge_row_cells c y) x y2 =
      if y2 = y then
        (if x < c.w - 1 then
          { get_cell c x y with
              full := if (get_cell c x y).full = 0 then (get_cell c x (y + 1)).full
                      else (get_cell c x y).full,
              h_crossed := if (get_cell c x y).h_crossed = 0 then (get_cell c x (y + 1)).h_crossed
                      else (get_cell c x y).h_crossed }
         else get_cell c x (y + 1))
      else
        (if x = c.w - 1 ∧ y2 = c.h - 2 then get_cell c x y2 else get_cell c x (y2 + 1)) := by
  have e2 : (y + 1) * c.w = y * c.w + c.w := Nat.succ_mul _ _
  have e4 : (c.h - 1) * c.w = (c.h - 2) * c.w + c.w := by
    have h9 : c.h - 1 = (c.h - 2) + 1 := by omega
    rw [h9, Nat.succ_mul]
  have e8 : c.w * (c.h - 1) = (c.h - 1) * c.w := Nat.mul_comm _ _
  rcases Nat.eq_or_lt_of_le hyy with h0 | h0
  · subst h0
    have eB : (y + 1) * c.w ≤ (c.h - 2) * c.w := Nat.mul_le_mul_right _ (by omega)
    have eA : x + y * c.w + c.w = x + (y + 1) * c.w := by omega
    unfold get_cell merge_row_cells
    simp only
    rw [eA]
    split_ifs <;> first | rfl | omega
  · have e1 : (y2 + 1) * c.w = y2 * c.w + c.w := Nat.succ_mul _ _
    have eD : (y + 1) * c.w ≤ y2 * c.w := Nat.mul_le_mul_right _ (by omega)
    have eA : x + y2 * c.w + c.w = x + (y2 + 1) * c.w := by omega
    rcases Nat.lt_or_ge y2 (c.h - 2) with h4 | h4
    · have eC : (y2 + 1) * c.w ≤ (c.h - 2) * c.w := Nat.mul_le_mul_right _ (by omega)
      unfold get_cell merge_row_cells
      simp only
      rw [eA]
      split_ifs <;> first | rfl | omega
    · have hy2e : y2 = c.h - 2 := by omega
      have e7 : y2 * c.w = (c.h - 2) * c.w := by rw [hy2e]
      unfold get_cell merge_row_cells
      simp only
      rw [eA]
      split_ifs <;> first | rfl | omega

/-- C3 amended, witness: a concrete evaluation of the characterization
on the 2 x 3 matrix cexC3 at x = 0, y2 = y = 0. -/
theorem merge_row_characterization_witness :
    get_cell (merge_row_cells cexC3 0) 0 0 =
      if (0 : Nat) = 0 then
        (if (0 : Nat) < cexC3.w - 1 then
          { get_cell cexC3 0 0 with
              full := if (get_cell cexC3 0 0).full = 0 then (get_cell cexC3 0 1).full
                      else (get_cell cexC3 0 0).full,
              h_crossed := if (get_cell cexC3 0 0).h_crossed = 0 then (get_cell cexC3 0 1).h_crossed
                      else (get_cell cexC3 0 0).h_crossed }
         else get_cell cexC3 0 1)
      else
        (if (0 : Nat) = cexC3.w - 1 ∧ (0 : Nat) = cexC3.h - 2 then get_cell cexC3 0 0
         else get_cell cexC3 0 1) :=
  merge_row_characterization cexC3 0 0 0 (by decide) (by decide) (by decide) (by decide) (by decide)

/-- Default entry used for positional access to grid lists. -/
def g0 : GEntry := ⟨0, 0, 0, 0, 0⟩

lemma fgpr_aux_spec (x : Rat) (ex : Bool) (l : List GEntry) (pm : Option Rat) :
    (fgpr_aux x ex l pm).2 = l ∨
    ∃ j : Nat, j < l.length ∧
      (fgpr_aux x ex l pm).1 = some (j : Int) ∧
      (∀ i, i < j → x > (l.getD i g0).max) ∧
      (l.getD j g0).min ≤ x ∧ x ≤ (l.getD j g0).max ∧
      (fgpr_aux x ex l pm).2 = l.set j (reinforce (l.getD j g0) x) := by
  induction l generalizing pm with
  | nil => left; rfl
  | cons g t ih =>
    by_cases h1 : x > g.max
    · rcases ih (some g.max) with hu | ⟨j, hj, hr, hlt, hmin, hmax, hset⟩
      · left
        simp only [fgpr_aux, if_pos h1]
        rw [hu]
      · right
        refine ⟨j + 1, by simpa using Nat.succ_lt_succ hj, ?_, ?_, ?_, ?_, ?_⟩
        · simp only [fgpr_aux, if_pos h1, hr, Option.map_some]
          norm_num
        · intro i hi
          cases i with
          | zero => simpa using h1
          | succ i => simpa using hlt i (by omega)
        · simpa using hmin
        · simpa using hmax
        · simp only [fgpr_aux, if_pos h1, hset, List.set, List.getD_cons_succ]
    · by_cases h2 : x < g.min
      · left
        cases pm with
        | none => simp [fgpr_aux, h1, h2]
        | some pm =>
          by_cases h3 : ex
          · simp only [fgpr_aux, if_neg h1, if_pos h2, h3, if_true]
          · simp [fgpr_aux, h1, h2, h3]
      · right
        refine ⟨0, by simp, ?_, ?_, ?_, ?_, ?_⟩
        · simp [fgpr_aux, h1, h2]
        · intro i hi
          omega
        · simpa using le_of_not_lt h2
        · simpa using le_of_not_lt h1
        · simp [fgpr_aux, h1, h2, List.set]

/-- C10: the divider lookup with reinforcement either leaves the grid
position list entirely unchanged (in particular whenever it returns -1
or snaps into a window gap via the expand path), or it returns the index
j of a divider whose [min, max] window contains the query point, and the
only change is the reinforcement update of that one entry. -/
theorem find_grid_pos_frame (p : GridPositions) (x : Rat) (ex : Bool) :
    (find_grid_pos_with_reinforcement p x ex).2 = p ∨
    ∃ j : Nat, j < p.list.length ∧
      (find_grid_pos_with_reinforcement p x ex).1 = (j : Int) ∧
      (p.list.getD j g0).min ≤ x ∧ x ≤ (p.list.getD j g0).max ∧
      (find_grid_pos_with_reinforcement p x ex).2 =
        { p with list := p.list.set j (reinforce (p.list.getD j g0) x) } := by
  rcases fgpr_aux_spec x ex p.list none with hu | ⟨j, hj, hr, hlt, hmin, hmax, hset⟩
  · left
    show ({ p with list := (fgpr_aux x ex p.list none).2 } : GridPositions) = p
    rw [hu]
  · right
    refine ⟨j, hj, ?_, hmin, hmax, ?_⟩
    · show (fgpr_aux x ex p.list none).1.getD (-1) = (j : Int)
      rw [hr]
      rfl
    · show ({ p with list := (fgpr_aux x ex p.list none).2 } : GridPositions) = _
      rw [hset]

/-- A concrete grid with three X and three Y dividers: windows
[0,0], [9,11], [20,30] on both axes. -/
def xposC2 : GridPositions := ⟨[⟨0, 0, 0, 0, 0⟩, ⟨10, 9, 11, 1, 0⟩, ⟨20, 20, 30, 0, 0⟩], 1⟩

/-- The walker state for the C2 counterexample. -/
def gdC2 : gwd := ⟨new_cells 3 3, xposC2, xposC2⟩

/-- A rectangle vector whose bottom edge (y1 = 100) lies outside every Y
window: both vertical adds and the second horizontal add fail, but the
first horizontal add succeeds. -/
def rC2 : Rect := ⟨0, 10, 20, 100⟩

/-- C2 counterexample: a rectangle is classified as failed even though
one of its four component adds (the horizontal rule at y0) succeeded —
the source combines the flags as (v0|v1)&(h0|h1), so one failing
horizontal and one failing vertical component suffice. -/
theorem walk_rect_fails_despite_success :
    (rect_h0 gdC2 rC2).1 = false ∧ (walk_rect gdC2 rC2).1 = true := by
  constructor <;>
    norm_num [walk_rect, rect_h0, rect_h1, rect_v0, rect_v1, add_h_line, add_v_line, gdC2, rC2,
      xposC2, find_grid_pos_with_reinforcement, fgpr_aux, reinforce, new_cells, bump_range,
      upd_cell]

lemma bool_fail_iff (a b c d : Bool) :
    ((c || d) && (a || b)) = false ↔
      ((a = false ∧ b = false) ∨ (c = false ∧ d = false)) := by
  cases a <;> cases b <;> cases c <;> cases d <;> decide

/-- C2 amended: a rectangle vector block is not classified as failed if
and only if both of its horizontal component adds succeed or both of its
vertical component adds succeed; equivalently it is failed exactly when
at least one horizontal add and at least one vertical add fail. -/
theorem walk_rect_failed_iff (gd : gwd) (r : Rect) :
    (walk_rect gd r).1 = false ↔
      (((rect_h0 gd r).1 = false ∧ (rect_h1 gd r).1 = false) ∨
       ((rect_v0 gd r).1 = false ∧ (rect_v1 gd r).1 = false)) := by
  exact bool_fail_iff _ _ _ _

/-- The rectangle grown so far by the rule walker for the C4
counterexample. -/
def rC4 : Rect := ⟨0, 5, 10, 6⟩

/-- A collinear vector box (same y0/y1) lying 10 units to the right of
rC4. -/
def bC4 : Rect := ⟨20, 5, 30, 6⟩

/-- C4 counterexample: the retry loop folds a collinear vector separated
by a gap of 10 units (far more than 1) into the rule: the source's gap
test is a disjunction that any non-degenerate collinear box satisfies. -/
theorem coalesce_merges_far_dash :
    coalesce_h rC4 [Block.vector bC4] = (⟨0, 5, 30, 6⟩, []) ∧ bC4.x0 - rC4.x1 > 1 := by
  constructor
  · norm_num [coalesce_h, fz_union_rect, fz_is_empty_rect, rC4, bC4]
  · norm_num [rC4, bC4]

/-- C4 amended: the coalescing loop merges the next vector block into
the current rule whenever it is collinear (equal y0 and y1), regardless
of the size of the gap: for non-degenerate boxes the disjunctive gap
test of the source cannot fail. -/
theorem coalesce_h_gap_vacuous (r bb : Rect) (hb : bb.x0 ≤ bb.x1) (hr : r.x0 ≤ r.x1)
    (hy0 : bb.y0 = r.y0) (hy1 : bb.y1 = r.y1) (rest : List Block) :
    coalesce_h r (Block.vector bb :: rest) = coalesce_h (fz_union_rect r bb) rest := by
  have hc : bb.x0 < r.x1 + 1 ∨ bb.x1 > r.x0 - 1 := by
    by_cases h : bb.x0 < r.x1 + 1
    · exact Or.inl h
    · right
      have : r.x1 + 1 ≤ bb.x0 := le_of_not_lt h
      linarith
  show (if bb.y0 = r.y0 ∧ bb.y1 = r.y1 ∧ (bb.x0 < r.x1 + 1 ∨ bb.x1 > r.x0 - 1) then
      coalesce_h (fz_union_rect r bb) rest
    else (r, Block.vector bb :: rest)) = coalesce_h (fz_union_rect r bb) rest
  rw [if_pos ⟨hy0, hy1, hc⟩]

/-- C4 amended, witness: the vacuity of the gap test applied to the
concrete far-away dash. -/
theorem coalesce_h_gap_vacuous_witness :
    coalesce_h rC4 [Block.vector bC4] = coalesce_h (fz_union_rect rC4 bC4) [] :=
  coalesce_h_gap_vacuous rC4 bC4 (by norm_num [bC4]) (by norm_num [rC4])
    (by norm_num [rC4, bC4]) (by norm_num [rC4, bC4]) []

/-- The table bounds used by erase_grid_lines: first and last divider
positions on each axis. -/
def bounds_of (gd : gwd) : Rect :=
  ⟨(gd.xpos.list.headD g0).pos, (gd.ypos.list.headD g0).pos,
   (gd.xpos.list.getLastD g0).pos, (gd.ypos.list.getLastD g0).pos⟩

/-- Apply the cell update f at every flat index of the list. -/
def bump_cells (f : cell_t → cell_t) (idxs : List Nat) (c : cells_t) : cells_t :=
  idxs.foldl (fun acc i => upd_cell acc i f) c

/-- Flat indices receiving v_crossed for a quad spanning cells
x0..x1, y0..y1: cells (x+1, y) for x0 <= x < x1, y0 <= y <= y1. -/
def vcross_indices (w x0 x1 y0 y1 : Nat) : List Nat :=
  (List.range (y1 + 1 - y0)).flatMap fun dy =>
    (List.range (x1 - x0)).map fun dx => (x0 + dx + 1) + (y0 + dy) * w

/-- Flat indices receiving h_crossed: cells (x, y+1) for x0 <= x <= x1,
y0 <= y < y1. -/
def hcross_indices (w x0 x1 y0 y1 : Nat) : List Nat :=
  (List.range (y1 - y0)).flatMap fun dy =>
    (List.range (x1 + 1 - x0)).map fun dx => (x0 + dx) + (y0 + dy + 1) * w

/-- Flat indices receiving full: every cell of the box x0..x1, y0..y1. -/
def full_indices (w x0 x1 y0 y1 : Nat) : List Nat :=
  (List.range (y1 + 1 - y0)).flatMap fun dy =>
    (List.range (x1 + 1 - x0)).map fun dx => (x0 + dx) + (y0 + dy) * w

/-- The counter updates of erase_grid_lines for one accepted character,
given the four cell indices of its quad corners. -/
def erase_apply (gd : gwd) (x0 x1 y0 y1 : Int) : gwd :=
  let w := gd.cells.w
  let c1 := if x0 < x1 then
      bump_cells (fun cl => { cl with v_crossed := cl.v_crossed + 1 })
        (vcross_indices w x0.toNat x1.toNat y0.toNat y1.toNat) gd.cells
    else gd.cells
  let c2 := if y0 < y1 then
      bump_cells (fun cl => { cl with h_crossed := cl.h_crossed + 1 })
        (hcross_indices w x0.toNat x1.toNat y0.toNat y1.toNat) c1
    else c1
  let c3 := bump_cells (fun cl => { cl with full := cl.full + 1 })
      (full_indices w x0.toNat x1.toNat y0.toNat y1.toNat) c2
  { gd with cells := c3 }

/-- The per-character step of erase_grid_lines: locate the quad corners
with find_cell, skip the character when any lookup fails, otherwise bump
v_crossed across crossed vertical edges, h_crossed across crossed
horizontal edges, and full on every covered cell. -/
def erase_char (gd : gwd) (q : Quad) : gwd :=
  let r := fz_rect_from_quad q
  let x0 := find_cell gd.xpos r.x0
  let x1 := find_cell gd.xpos r.x1
  let y0 := find_cell gd.ypos r.y0
  let y1 := find_cell gd.ypos r.y1
  if x0 < 0 ∨ x1 < 0 ∨ y0 < 0 ∨ y1 < 0 then gd
  else erase_apply gd x0 x1 y0 y1

/-- Modelled from the spec: the claim's notion of a quad lying entirely
outside the table's bounds (disjoint rectangles). -/
def outside_bounds (r b : Rect) : Prop :=
  r.x1 < b.x0 ∨ b.x1 < r.x0 ∨ r.y1 < b.y0 ∨ b.y1 < r.y0

/-- A rectangle lying coordinate-wise within the bounds rectangle. -/
def within_bounds (r b : Rect) : Prop :=
  b.x0 ≤ r.x0 ∧ r.x1 ≤ b.x1 ∧ b.y0 ≤ r.y0 ∧ r.y1 ≤ b.y1

lemma bump_cells_keeps_full (f : cell_t → cell_t) (hf : ∀ cl, (f cl).full = cl.full)
    (idxs : List Nat) (c : cells_t) (j : Nat) :
    ((bump_cells f idxs c).cell j).full = (c.cell j).full := by
  induction idxs generalizing c with
  | nil => rfl
  | cons i t ih =>
    show ((bump_cells f t (upd_cell c i f)).cell j).full = _
    rw [ih]
    unfold upd_cell
    by_cases h : j = i <;> simp [h, hf]

lemma bump_cells_full_le (idxs : List Nat) (c : cells_t) (j : Nat) :
    (c.cell j).full ≤
      ((bump_cells (fun cl => { cl with full := cl.full + 1 }) idxs c).cell j).full := by
  induction idxs generalizing c with
  | nil => exact le_refl _
  | cons i t ih =>
    refine le_trans ?_ (ih (upd_cell c i _))
    unfold upd_cell
    by_cases h : j = i <;> simp [h]

lemma bump_cells_full_lt (idxs : List Nat) (c : cells_t) (j : Nat) (hj : j ∈ idxs) :
    (c.cell j).full <
      ((bump_cells (fun cl => { cl with full := cl.full + 1 }) idxs c).cell j).full := by
  induction idxs generalizing c with
  | nil => cases hj
  | cons i t ih =>
    show _ < ((bump_cells _ t (upd_cell c i _)).cell j).full
    by_cases h : j = i
    · refine lt_of_lt_of_le ?_ (bump_cells_full_le t _ j)
      subst h
      unfold upd_cell
      simp
    · rcases List.mem_cons.mp hj with h1 | h1
      · exact absurd h1 h
      · refine lt_of_le_of_lt ?_ (ih (upd_cell c i _) h1)
        unfold upd_cell
        simp [h]

lemma find_cell_aux_none_iff (x : Rat) (l : List GEntry) :
    find_cell_aux x l = none ↔ ∀ e ∈ l, e.pos ≤ x := by
  induction l with
  | nil => simp [find_cell_aux]
  | cons g t ih =>
    unfold find_cell_aux
    by_cases h : x < g.pos
    · simp only [if_pos h]
      constructor
      · intro hc
        cases hc
      · intro hall
        exact absurd h (not_lt.mpr (hall g (by simp)))
    · simp only [if_neg h, Option.map_eq_none', ih]
      constructor
      · intro hall e he
        rcases List.mem_cons.mp he with h1 | h1
        · subst h1
          exact le_of_not_lt h
        · exact hall e h1
      · intro hall e he
        exact hall e (List.mem_cons_of_mem g he)

lemma find_cell_aux_cons_zero (x : Rat) (g : GEntry) (t : List GEntry) :
    find_cell_aux x (g :: t) = some 0 ↔ x < g.pos := by
  unfold find_cell_aux
  by_cases h : x < g.pos
  · simp [h]
  · simp only [if_neg h]
    constructor
    · intro hc
      exfalso
      rcases Option.map_eq_some'.mp hc with ⟨a, _, ha⟩
      omega
    · intro hc
      exact absurd hc h

lemma find_cell_aux_bound (x : Rat) (l : List GEntry) (i : Nat)
    (h : find_cell_aux x l = some i) : i < l.length := by
  induction l generalizing i with
  | nil => simp [find_cell_aux] at h
  | cons g t ih =>
    unfold find_cell_aux at h
    by_cases hx : x < g.pos
    · simp only [if_pos hx, Option.some_inj] at h
      simp
      omega
    · simp only [if_neg hx, Option.map_eq_some'] at h
      rcases h with ⟨j, hj, hji⟩
      have := ih j hj
      simp
      omega

lemma find_cell_aux_mono (x y : Rat) (hx : x ≤ y) (l : List GEntry) (j : Nat)
    (h : find_cell_aux y l = some j) : ∃ i ≤ j, find_cell_aux x l = some i := by
  induction l generalizing j with
  | nil => simp [find_cell_aux] at h
  | cons g t ih =>
    by_cases hy : y < g.pos
    · have hxg : x < g.pos := lt_of_le_of_lt hx hy
      exact ⟨0, by omega, (find_cell_aux_cons_zero x g t).mpr hxg⟩
    · unfold find_cell_aux at h
      simp [hy] at h
      rcases h with ⟨j2, hj2, hj2e⟩
      by_cases hxg : x < g.pos
      · exact ⟨0, by omega, (find_cell_aux_cons_zero x g t).mpr hxg⟩
      · rcases ih j2 hj2 with ⟨i2, hi2, hi2e⟩
        refine ⟨i2 + 1, by omega, ?_⟩
        unfold find_cell_aux
        simp [hxg, hi2e]

lemma chain_pos_le_getLast (l : List GEntry)
    (hs : List.Chain' (fun a b => a.pos < b.pos) l) :
    ∀ e ∈ l, e.pos ≤ (l.getLastD g0).pos := by
  induction l with
  | nil => simp
  | cons g t ih =>
    intro e he
    cases t with
    | nil =>
      simp at he
      simp [he]
    | cons g2 t2 =>
      have hgl : g.pos < g2.pos := (List.chain'_cons.mp hs).1
      have ht : List.Chain' (fun a b => a.pos < b.pos) (g2 :: t2) := (List.chain'_cons.mp hs).2
      have hlast : (g :: g2 :: t2).getLastD g0 = (g2 :: t2).getLastD g0 := by
        simp [List.getLastD]
      rw [hlast]
      rcases List.mem_cons.mp he with h1 | h1
      · subst h1
        exact le_trans (le_of_lt hgl) (ih ht g2 (by simp))
      · exact ih ht e h1

lemma find_cell_neg_left (p : GridPositions) (x : Rat)
    (hne : p.list ≠ []) (h : x < (p.list.headD g0).pos) : find_cell p x = -1 := by
  cases hl : p.list with
  | nil => exact absurd hl hne
  | cons g t =>
    rw [hl] at h
    simp at h
    unfold find_cell
    rw [hl, (find_cell_aux_cons_zero x g t).mpr h]
    rfl

lemma find_cell_neg_right (p : GridPositions) (x : Rat)
    (hs : List.Chain' (fun a b => a.pos < b.pos) p.list)
    (h : (p.list.getLastD g0).pos < x) : find_cell p x = -1 := by
  have hnone : find_cell_aux x p.list = none := by
    rw [find_cell_aux_none_iff]
    intro e he
    exact le_trans (chain_pos_le_getLast p.list hs e he) (le_of_lt h)
  unfold find_cell
  rw [hnone]
  cases hl : p.list.getLast? with
  | none => rfl
  | some g =>
    have : p.list.getLastD g0 = g := by
      rw [List.getLastD_eq_getLast?, hl]
      rfl
    rw [this] at h
    simp [ne_of_gt h]

lemma find_cell_nonneg (p : GridPositions) (x : Rat) (hne : p.list ≠ [])
    (h1 : (p.list.headD g0).pos ≤ x) (h2 : x ≤ (p.list.getLastD g0).pos) :
    0 ≤ find_cell p x := by
  unfold find_cell
  cases ha : find_cell_aux x p.list with
  | some i =>
    cases hl : p.list with
    | nil => exact absurd hl hne
    | cons g t =>
      rw [hl] at ha
      cases i with
      | zero =>
        have := (find_cell_aux_cons_zero x g t).mp ha
        rw [hl] at h1
        simp at h1
        exact absurd this (not_lt.mpr h1)
      | succ i =>
        simp
  | none =>
    have hle := (find_cell_aux_none_iff x p.list).mp ha
    have hgl : (p.list.getLastD g0).pos ≤ x := by
      apply hle
      rw [List.getLastD_eq_getLast?]
      cases hq : p.list.getLast? with
      | none =>
        rw [List.getLast?_eq_none_iff] at hq
        exact absurd hq hne
      | some e =>
        simp only [Option.getD_some]
        exact List.mem_of_mem_getLast? (by rw [hq]; rfl)
    have hxe : x = (p.list.getLastD g0).pos := le_antisymm h2 hgl
    cases hq : p.list.getLast? with
    | none =>
      rw [List.getLast?_eq_none_iff] at hq
      exact absurd hq hne
    | some e =>
      have : p.list.getLastD g0 = e := by
        rw [List.getLastD_eq_getLast?, hq]
        rfl
      rw [this] at hxe
      simp [hxe]
      have : p.list.length ≠ 0 := by
        intro h0
        exact hne (List.length_eq_zero.mp h0)
      omega

lemma find_cell_mono (p : GridPositions) (x y : Rat) (hxy : x ≤ y)
    (h1 : 0 ≤ find_cell p y) : find_cell p x ≤ find_cell p y := by
  unfold find_cell at h1 ⊢
  cases ha : find_cell_aux y p.list with
  | some j =>
    rcases find_cell_aux_mono x y hxy p.list j ha with ⟨i, hij, hie⟩
    rw [hie]
    simp
    omega
  | none =>
    rw [ha] at h1
    simp only at h1 ⊢
    cases hq : p.list.getLast? with
    | none =>
      rw [hq] at h1
      norm_num at h1
    | some e =>
      rw [hq] at h1
      simp only at h1 ⊢
      by_cases he : y = e.pos
      · rw [if_pos he] at h1 ⊢
        cases hb : find_cell_aux x p.list with
        | some i =>
          have := find_cell_aux_bound x p.list i hb
          simp only
          omega
        | none =>
          simp only
          split_ifs <;> omega
      · rw [if_neg he] at h1
        norm_num at h1

lemma fz_rect_from_quad_le (q : Quad) :
    (fz_rect_from_quad q).x0 ≤ (fz_rect_from_quad q).x1 ∧
      (fz_rect_from_quad q).y0 ≤ (fz_rect_from_quad q).y1 := by
  unfold fz_rect_from_quad
  constructor
  · exact le_trans (le_trans (min_le_left _ _) (min_le_left _ _))
      (le_trans (le_max_left _ _) (le_max_left _ _))
  · exact le_trans (le_trans (min_le_left _ _) (min_le_left _ _))
      (le_trans (le_max_left _ _) (le_max_left _ _))

lemma erase_apply_full_lt (gd : gwd) (x0 x1 y0 y1 : Int) (j : Nat)
    (hj : j ∈ full_indices gd.cells.w x0.toNat x1.toNat y0.toNat y1.toNat) :
    (gd.cells.cell j).full < ((erase_apply gd x0 x1 y0 y1).cells.cell j).full := by
  unfold erase_apply
  simp only
  refine lt_of_le_of_lt ?_ (bump_cells_full_lt _ _ _ hj)
  have A : ∀ (c : cells_t) l,
      ((bump_cells (fun cl => { cl with v_crossed := cl.v_crossed + 1 }) l c).cell j).full =
        (c.cell j).full :=
    fun c l =>
      bump_cells_keeps_full (fun cl => { cl with v_crossed := cl.v_crossed + 1 })
        (fun cl => rfl) l c j
  have B : ∀ (c : cells_t) l,
      ((bump_cells (fun cl => { cl with h_crossed := cl.h_crossed + 1 }) l c).cell j).full =
        (c.cell j).full :=
    fun c l =>
      bump_cells_keeps_full (fun cl => { cl with h_crossed := cl.h_crossed + 1 })
        (fun cl => rfl) l c j
  split_ifs <;> simp [A, B]

/-- C5 amended: a character quad is skipped by the content walker —
leaving every cell counter unchanged — exactly when it is not wholly
contained in the table's bounds rectangle; in particular a quad that
only partially overlaps the table contributes nothing (hypotheses: the
divider lists are nonempty with strictly increasing positions, as the
grid builder produces them). -/
theorem erase_char_skip_iff (gd : gwd) (q : Quad)
    (hxne : gd.xpos.list ≠ []) (hyne : gd.ypos.list ≠ [])
    (hsx : List.Chain' (fun a b => a.pos < b.pos) gd.xpos.list)
    (hsy : List.Chain' (fun a b => a.pos < b.pos) gd.ypos.list) :
    erase_char gd q = gd ↔ ¬ within_bounds (fz_rect_from_quad q) (bounds_of gd) := by
  have h0 := fz_rect_from_quad_le q
  constructor
  · intro heq hwin
    unfold within_bounds bounds_of at hwin
    obtain ⟨hb1, hb2, hb3, hb4⟩ := hwin
    have hx0 : 0 ≤ find_cell gd.xpos (fz_rect_from_quad q).x0 :=
      find_cell_nonneg _ _ hxne hb1 (le_trans h0.1 hb2)
    have hx1 : 0 ≤ find_cell gd.xpos (fz_rect_from_quad q).x1 :=
      find_cell_nonneg _ _ hxne (le_trans hb1 h0.1) hb2
    have hy0 : 0 ≤ find_cell gd.ypos (fz_rect_from_quad q).y0 :=
      find_cell_nonneg _ _ hyne hb3 (le_trans h0.2 hb4)
    have hy1 : 0 ≤ find_cell gd.ypos (fz_rect_from_quad q).y1 :=
      find_cell_nonneg _ _ hyne (le_trans hb3 h0.2) hb4
    have hmx : (find_cell gd.xpos (fz_rect_from_quad q).x0).toNat ≤
        (find_cell gd.xpos (fz_rect_from_quad q).x1).toNat :=
      Int.toNat_le_toNat (find_cell_mono gd.xpos _ _ h0.1 hx1)
    have hmy : (find_cell gd.ypos (fz_rect_from_quad q).y0).toNat ≤
        (find_cell gd.ypos (fz_rect_from_quad q).y1).toNat :=
      Int.toNat_le_toNat (find_cell_mono gd.ypos _ _ h0.2 hy1)
    have hmem : (find_cell gd.xpos (fz_rect_from_quad q).x0).toNat +
        (find_cell gd.ypos (fz_rect_from_quad q).y0).toNat * gd.cells.w ∈
        full_indices gd.cells.w
          (find_cell gd.xpos (fz_rect_from_quad q).x0).toNat
          (find_cell gd.xpos (fz_rect_from_quad q).x1).toNat
          (find_cell gd.ypos (fz_rect_from_quad q).y0).toNat
          (find_cell gd.ypos (fz_rect_from_quad q).y1).toNat := by
      unfold full_indices
      refine List.mem_flatMap.mpr ⟨0, ?_, ?_⟩
      · rw [List.mem_range]
        omega
      · refine List.mem_map.mpr ⟨0, ?_, ?_⟩
        · rw [List.mem_range]
          omega
        · simp
    have hlt := erase_apply_full_lt gd
      (find_cell gd.xpos (fz_rect_from_quad q).x0)
      (find_cell gd.xpos (fz_rect_from_quad q).x1)
      (find_cell gd.ypos (fz_rect_from_quad q).y0)
      (find_cell gd.ypos (fz_rect_from_quad q).y1) _ hmem
    have hval : erase_char gd q = erase_apply gd
        (find_cell gd.xpos (fz_rect_from_quad q).x0)
        (find_cell gd.xpos (fz_rect_from_quad q).x1)
        (find_cell gd.ypos (fz_rect_from_quad q).y0)
        (find_cell gd.ypos (fz_rect_from_quad q).y1) := by
      unfold erase_char
      rw [if_neg (by omega)]
    rw [heq] at hval
    rw [← hval] at hlt
    exact Nat.lt_irrefl _ hlt
  · intro hout
    have hdis : (fz_rect_from_quad q).x0 < (bounds_of gd).x0 ∨
        (bounds_of gd).x1 < (fz_rect_from_quad q).x1 ∨
        (fz_rect_from_quad q).y0 < (bounds_of gd).y0 ∨
        (bounds_of gd).y1 < (fz_rect_from_quad q).y1 := by
      unfold within_bounds at hout
      push_neg at hout
      by_cases hc1 : (bounds_of gd).x0 ≤ (fz_rect_from_quad q).x0
      · by_cases hc2 : (fz_rect_from_quad q).x1 ≤ (bounds_of gd).x1
        · by_cases hc3 : (bounds_of gd).y0 ≤ (fz_rect_from_quad q).y0
          · exact Or.inr (Or.inr (Or.inr (hout hc1 hc2 hc3)))
          · exact Or.inr (Or.inr (Or.inl (lt_of_not_le hc3)))
        · exact Or.inr (Or.inl (lt_of_not_le hc2))
      · exact Or.inl (lt_of_not_le hc1)
    have hneg : find_cell gd.xpos (fz_rect_from_quad q).x0 < 0 ∨
        find_cell gd.xpos (fz_rect_from_quad q).x1 < 0 ∨
        find_cell gd.ypos (fz_rect_from_quad q).y0 < 0 ∨
        find_cell gd.ypos (fz_rect_from_quad q).y1 < 0 := by
      rcases hdis with h | h | h | h
      · left
        rw [find_cell_neg_left gd.xpos _ hxne h]
        norm_num
      · right; left
        rw [find_cell_neg_right gd.xpos _ hsx h]
        norm_num
      · right; right; left
        rw [find_cell_neg_left gd.ypos _ hyne h]
        norm_num
      · right; right; right
        rw [find_cell_neg_right gd.ypos _ hsy h]
        norm_num
    unfold erase_char
    rw [if_pos hneg]

/-- A grid position list with dividers at 0, 10, 20. -/
def pC5 : GridPositions := ⟨[⟨0, 0, 0, 0, 0⟩, ⟨10, 9, 11, 1, 0⟩, ⟨20, 20, 20, 0, 0⟩], 1⟩

/-- The walker state for the C5 counterexample: a 3 x 3 table spanning
[0,20] x [0,20]. -/
def gdC5 : gwd := ⟨new_cells 3 3, pC5, pC5⟩

/-- A character quad spanning (-5,2)-(5,8): it overlaps the table but
sticks out on the left. -/
def qC5 : Quad := ⟨⟨-5, 2⟩, ⟨5, 2⟩, ⟨-5, 8⟩, ⟨5, 8⟩⟩

/-- C5 counterexample: a quad that partially overlaps the table (it is
not entirely outside the bounds) is nevertheless skipped by the content
walker, mutating no counter — find_cell fails on its protruding left
edge. -/
theorem erase_skips_partial_overlap :
    erase_char gdC5 qC5 = gdC5 ∧
      ¬ outside_bounds (fz_rect_from_quad qC5) (bounds_of gdC5) := by
  constructor
  · norm_num [erase_char, find_cell, find_cell_aux, gdC5, pC5, qC5, fz_rect_from_quad,
      min_def, max_def]
  · norm_num [outside_bounds, bounds_of, gdC5, pC5, qC5, fz_rect_from_quad, min_def, max_def]

/-- C5 amended, witness: the skip equivalence applied to the concrete
partially-overlapping quad. -/
theorem erase_char_skip_iff_witness :
    erase_char gdC5 qC5 = gdC5 :=
  (erase_char_skip_iff gdC5 qC5
      (by simp [gdC5, pC5])
      (by simp [gdC5, pC5])
      (by norm_num [gdC5, pC5, List.chain'_cons])
      (by norm_num [gdC5, pC5, List.chain'_cons])).mpr
    (by norm_num [within_bounds, bounds_of, gdC5, pC5, qC5, fz_rect_from_quad, min_def, max_def])

/-- The (character, quad) pair carried by a character. -/
def chr_key (c : Chr) : Nat × Quad := (c.c, c.quad)

/-- The multiset of (character, quad) pairs of a list of lines. -/
def chars_lines (ls : List Line) : Multiset (Nat × Quad) :=
  (ls.map fun ln => ((ln.chars.map chr_key : List (Nat × Quad)) : Multiset (Nat × Quad))).sum

/-- The multiset of (character, quad) pairs under a block, nested
structure children included. -/
def chars_block : Block → Multiset (Nat × Quad)
  | .text _ lines => chars_lines lines
  | .vector _ => 0
  | .strukt _ _ _ _ children => (children.attach.map fun b => chars_block b.1).sum
  | .grid _ => 0
decreasing_by
  have h := List.sizeOf_lt_of_mem b.2
  simp only [Block.strukt.sizeOf_spec]
  omega

/-- The multiset of (character, quad) pairs under a list of blocks. -/
def chars_blocks (l : List Block) : Multiset (Nat × Quad) :=
  (l.map chars_block).sum

/-- The character split of a partially included line in
move_contained_content: a character stays when the midpoint of its quad
rectangle falls outside the target rectangle (by the source's inclusive
test), and is taken otherwise; both sublists keep their order. -/
def split_chars (r : Rect) : List Chr → List Chr × List Chr
  | [] => ([], [])
  | c :: cs =>
    let rest := split_chars r cs
    let cr := fz_rect_from_quad c.quad
    let x := (cr.x0 + cr.x1) / 2
    let y := (cr.y0 + cr.y1) / 2
    if r.x0 > x ∨ r.x1 < x ∨ r.y0 > y ∨ r.y1 < y then (c :: rest.1, rest.2)
    else (rest.1, c :: rest.2)

/-- The bbox accumulated for a freshly built line: union of the taken
quad rectangles, seeded with the empty rectangle. -/
def line_bbox_of_chars (cs : List Chr) : Rect :=
  cs.foldl (fun acc c => fz_union_rect acc (fz_rect_from_quad c.quad)) fz_empty_rect

/-- recalc_bbox from the source: a text block's bbox is the union of its
line bboxes. -/
def recalc_bbox_lines (ls : List Line) : Rect :=
  ls.foldl (fun acc ln => fz_union_rect acc ln.bbox) fz_empty_rect

/-- The line walk of move_contained_content for a partially included
text block: lines trivially excluded stay, lines trivially included move
whole, and partially included lines are split character-by-character
(the donor line keeps the remaining characters and its stale bbox, the
new line carries the taken characters).  Returns (kept, moved). -/
def move_lines (r : Rect) : List Line → List Line × List Line
  | [] => ([], [])
  | ln :: ls =>
    let rest := move_lines r ls
    let lrect := fz_intersect_rect ln.bbox r
    if lrect.x0 > lrect.x1 ∨ lrect.y0 > lrect.y1 then (ln :: rest.1, rest.2)
    else if ln.bbox.x0 = lrect.x0 ∧ ln.bbox.y0 = lrect.y0 ∧
        ln.bbox.x1 = lrect.x1 ∧ ln.bbox.y1 = lrect.y1 then
      (rest.1, ln :: rest.2)
    else
      let sp := split_chars r ln.chars
      if sp.2 = [] then (ln :: rest.1, rest.2)
      else ({ ln with chars := sp.1 } :: rest.1,
            ⟨line_bbox_of_chars sp.2, ln.wmode, ln.dir, sp.2⟩ :: rest.2)

/-- The per-block step of move_contained_content: trivially excluded
blocks stay, trivially included blocks move whole, partially included
text blocks are split at the line level with both halves' bboxes
recalculated, and any other partially included block stays. -/
def move_block (r : Rect) (b : Block) : List Block × List Block :=
  let bbox := fz_intersect_rect b.bbox r
  if bbox.x0 > bbox.x1 ∨ bbox.y0 > bbox.y1 then ([b], [])
  else if bbox.x0 = b.bbox.x0 ∧ bbox.y0 = b.bbox.y0 ∧
      bbox.x1 = b.bbox.x1 ∧ bbox.y1 = b.bbox.y1 then ([], [b])
  else
    match b with
    | .text _ lines =>
      let mv := move_lines r lines
      if mv.2 = [] then ([b], [])
      else ([Block.text (recalc_bbox_lines mv.1) mv.1],
            [Block.text (recalc_bbox_lines mv.2) mv.2])
    | _ => ([b], [])

/-- The source-list walk of move_contained_content. -/
def move_blocks (r : Rect) : List Block → List Block × List Block
  | [] => ([], [])
  | b :: bs =>
    let mb := move_block r b
    let rest := move_blocks r bs
    (mb.1 ++ rest.1, mb.2 ++ rest.2)

/-- move_contained_content from the source: every source block
intersecting r is moved (wholly, or split at line/character level) into
the destination, inserted in source order before the destination's
original first block. -/
def move_contained_content (r : Rect) (src dest : List Block) : List Block × List Block :=
  let mv := move_blocks r src
  (mv.1, mv.2 ++ dest)

lemma split_chars_conserve (r : Rect) (cs : List Chr) :
    (((split_chars r cs).1.map chr_key : List (Nat × Quad)) : Multiset (Nat × Quad)) +
      (((split_chars r cs).2.map chr_key : List (Nat × Quad)) : Multiset (Nat × Quad)) =
      ((cs.map chr_key : List (Nat × Quad)) : Multiset (Nat × Quad)) := by
  induction cs with
  | nil => simp [split_chars]
  | cons c cs ih =>
    unfold split_chars
    dsimp only
    split_ifs with h
    · simp only [List.map_cons, ← Multiset.cons_coe, Multiset.cons_add]
      rw [ih]
    · simp only [List.map_cons, ← Multiset.cons_coe, Multiset.add_cons]
      rw [ih]

lemma chars_lines_cons (ln : Line) (ls : List Line) :
    chars_lines (ln :: ls) =
      ((ln.chars.map chr_key : List (Nat × Quad)) : Multiset (Nat × Quad)) + chars_lines ls := by
  unfold chars_lines
  simp

lemma move_lines_conserve (r : Rect) (ls : List Line) :
    chars_lines (move_lines r ls).1 + chars_lines (move_lines r ls).2 = chars_lines ls := by
  induction ls with
  | nil => simp [move_lines, chars_lines]
  | cons ln ls ih =>
    unfold move_lines
    dsimp only
    split_ifs with h1 h2 h3
    · simp only [chars_lines_cons]
      rw [add_assoc, ih]
    · simp only [chars_lines_cons]
      rw [add_left_comm, ih]
    · simp only [chars_lines_cons]
      rw [add_assoc, ih]
    · simp only [chars_lines_cons]
      show ((((split_chars r ln.chars).1.map chr_key : List (Nat × Quad)) : Multiset (Nat × Quad)) +
          chars_lines (move_lines r ls).1) +
          ((((split_chars r ln.chars).2.map chr_key : List (Nat × Quad)) : Multiset (Nat × Quad)) +
          chars_lines (move_lines r ls).2) = _
      have := split_chars_conserve r ln.chars
      calc _ = ((((split_chars r ln.chars).1.map chr_key : List (Nat × Quad)) : Multiset (Nat × Quad)) +
              (((split_chars r ln.chars).2.map chr_key : List (Nat × Quad)) : Multiset (Nat × Quad))) +
              (chars_lines (move_lines r ls).1 + chars_lines (move_lines r ls).2) := by
            rw [add_add_add_comm]
        _ = _ := by rw [this, ih]

lemma chars_block_text (bb : Rect) (lines : List Line) :
    chars_block (Block.text bb lines) = chars_lines lines := by
  unfold chars_block
  rfl

lemma move_block_conserve (r : Rect) (b : Block) :
    chars_blocks (move_block r b).1 + chars_blocks (move_block r b).2 = chars_block b := by
  unfold move_block
  dsimp only
  split_ifs with h1 h2
  · simp [chars_blocks]
  · simp [chars_blocks]
  · cases b with
    | text bb lines =>
      simp only
      split_ifs with h3
      · simp [chars_blocks]
      · simp only [chars_blocks, List.map_cons, List.map_nil, List.sum_cons, List.sum_nil,
          add_zero, chars_block_text]
        exact move_lines_conserve r lines
    | vector bb => simp [chars_blocks]
    | strukt bb tag raw idx children => simp [chars_blocks]
    | grid bb => simp [chars_blocks]

lemma chars_blocks_append (a b : List Block) :
    chars_blocks (a ++ b) = chars_blocks a + chars_blocks b := by
  unfold chars_blocks
  simp

lemma move_blocks_conserve (r : Rect) (l : List Block) :
    chars_blocks (move_blocks r l).1 + chars_blocks (move_blocks r l).2 = chars_blocks l := by
  induction l with
  | nil => simp [move_blocks, chars_blocks]
  | cons b bs ih =>
    unfold move_blocks
    simp only [chars_blocks_append]
    have hb := move_block_conserve r b
    have : chars_blocks (b :: bs) = chars_block b + chars_blocks bs := by
      simp [chars_blocks]
    rw [this, ← hb, ← ih]
    rw [add_add_add_comm]

/-- C1: the content transplant conserves characters: the multiset of
(character, quad) pairs in the source parent plus the destination is
identical before and after move_contained_content — characters move
between blocks and lines but none is created, destroyed or
duplicated. -/
theorem move_contained_content_conserves (r : Rect) (src dest : List Block) :
    chars_blocks (move_contained_content r src dest).1 +
      chars_blocks (move_contained_content r src dest).2 =
      chars_blocks src + chars_blocks dest := by
  unfold move_contained_content
  simp only [chars_blocks_append]
  rw [← add_assoc, move_blocks_conserve]

/-- A divider event (models the div_list entries): side, position,
frequency. -/
structure Ev where
  left : Bool
  pos : Rat
  freq : Nat
deriving DecidableEq, Repr

/-- Default event for positional access. -/
def dEv : Ev := ⟨true, 0, 0⟩

/-- The (side, position) key of an event. -/
def key (e : Ev) : Bool × Rat := (e.left, e.pos)

/-- div_list_push from the source: insert sorted by pos, coalescing an
entry with identical (pos, left) by bumping its freq. -/
def div_list_push (l : List Ev) (left : Bool) (pos : Rat) : List Ev :=
  match l with
  | [] => [⟨left, pos, 1⟩]
  | e :: rest =>
    if e.pos > pos then ⟨left, pos, 1⟩ :: e :: rest
    else if e.pos = pos ∧ e.left = left then { e with freq := e.freq + 1 } :: rest
    else e :: div_list_push rest left pos

/-- The left edge the walker reads off a character quad. -/
def lpos_of (c : Chr) : Rat := min c.quad.ll.x c.quad.ul.x

/-- The right edge the walker reads off a character quad. -/
def rpos_of (c : Chr) : Rat := max c.quad.lr.x c.quad.ur.x

/-- The X-event emission of walk_blocks for one line, following the
character state machine of the source: leftF/rightF are the left/right
flags, rpos the running right edge.  A non-space glyph opens a run when
leftF is set; a trailing space or a run of two or more spaces closes the
run at the first space's left edge; the end of the line closes a run at
rpos; interior single spaces are ignored. -/
def line_x_events : List Chr → Bool → Bool → Rat → List (Bool × Rat)
  | [], _, rightF, rpos => if rightF then [(false, rpos)] else []
  | c :: cs, leftF, rightF, rpos =>
    if c.c = 32 then
      if cs = [] then (if rightF then [(false, lpos_of c)] else [])
      else if (cs.headD c).c = 32 then
        (if rightF then
          (false, lpos_of c) :: line_x_events (cs.dropWhile fun d => d.c = 32) true false rpos
        else line_x_events cs leftF rightF rpos)
      else line_x_events cs leftF rightF rpos
    else
      (if leftF then [(true, lpos_of c)] else []) ++ line_x_events cs false true (rpos_of c)
termination_by l _ _ _ => l.length
decreasing_by
  · simp only [List.length_cons]
    exact Nat.lt_succ_of_le (List.Sublist.length_le (List.dropWhile_sublist _))
  · simp
  · simp
  · simp

/-- The Y-event emission of walk_blocks for one line. -/
def line_y_events (ln : Line) : List (Bool × Rat) :=
  [(true, ln.bbox.y0), (false, ln.bbox.y1)]

/-- The lines seen by walk_blocks at descend = 0: the lines of the text
blocks of the level, in document order. -/
def lines_of_blocks (l : List Block) : List Line :=
  l.flatMap fun b =>
    match b with
    | .text _ ls => ls
    | _ => []

/-- The chronological X pushes of walk_blocks over one level. -/
def x_pushes (l : List Block) : List (Bool × Rat) :=
  (lines_of_blocks l).flatMap fun ln => line_x_events ln.chars true false 0

/-- The chronological Y pushes of walk_blocks over one level. -/
def y_pushes (l : List Block) : List (Bool × Rat) :=
  (lines_of_blocks l).flatMap line_y_events

/-- Fold the pushes into a div_list. -/
def build_div_list (ps : List (Bool × Rat)) : List Ev :=
  ps.foldl (fun l p => div_list_push l p.1 p.2) []

/-- Zero an event's frequency (the combining loops of
sanitize_positions write zeros in place). -/
def zero_freq (e : Ev) : Ev := { e with freq := 0 }

/-- The combining phase of sanitize_positions: a run of left events
accumulates its total frequency into its first entry, a run of right
events into its last entry; the other entries of the run are zeroed in
place. -/
def combine : List Ev → List Ev
  | [] => []
  | e :: rest =>
    if e.left then
      { e with freq := e.freq + ((rest.takeWhile (·.left)).map (·.freq)).sum } ::
        ((rest.takeWhile (·.left)).map zero_freq ++ combine (rest.dropWhile (·.left)))
    else
      ((e :: rest.takeWhile (fun x => !x.left)).dropLast.map zero_freq) ++
        ({ (e :: rest.takeWhile (fun x => !x.left)).getLastD e with
            freq := ((e :: rest.takeWhile (fun x => !x.left)).map (·.freq)).sum } ::
          combine (rest.dropWhile (fun x => !x.left)))
termination_by l => l.length
decreasing_by
  · simp only [List.length_cons]
    exact Nat.lt_succ_of_le (List.Sublist.length_le (List.dropWhile_sublist _))
  · simp only [List.length_cons]
    exact Nat.lt_succ_of_le (List.Sublist.length_le (List.dropWhile_sublist _))

/-- The compaction phase of sanitize_positions: drop zero-frequency
entries. -/
def compact (l : List Ev) : List Ev :=
  l.filter fun e => e.freq ≠ 0

/-- sanitize_positions from the source: combine runs, then compact. -/
def sanitize_positions (l : List Ev) : List Ev :=
  compact (combine l)

/-- The winding walk of make_table_positions: add freq at each left
event, subtract it at each right event. -/
def wind_after (l : List Ev) : Int :=
  l.foldl (fun w e => if e.left then w + (e.freq : Int) else w - (e.freq : Int)) 0

/-- The signed frequency sum of an event list. -/
def ssum (l : List Ev) : Int :=
  (l.map fun e => if e.left then (e.freq : Int) else -(e.freq : Int)).sum

/-- The event lists a well-formed line emits: pairs of a left event
followed by a right event strictly to its right. -/
inductive RunList : List (Bool × Rat) → Prop
  | nil : RunList []
  | pair (lp rp : Rat) (rest : List (Bool × Rat)) :
      lp < rp → RunList rest → RunList ((true, lp) :: (false, rp) :: rest)

/-- Events sorted by position (div_list_push keeps the list sorted). -/
def EvSorted (l : List Ev) : Prop := List.Pairwise (fun a b => a.pos ≤ b.pos) l

/-- No two entries share a (side, position) key. -/
def KeyUniq (l : List Ev) : Prop := List.Pairwise (fun a b => key a ≠ key b) l

lemma push_pos_mem (l : List Ev) (s : Bool) (p : Rat) :
    ∀ x ∈ div_list_push l s p, x.pos = p ∨ x.pos ∈ l.map (·.pos) := by
  induction l with
  | nil =>
    intro x hx
    simp [div_list_push] at hx
    simp [hx]
  | cons e rest ih =>
    intro x hx
    unfold div_list_push at hx
    split_ifs at hx with h1 h2
    · rcases List.mem_cons.mp hx with h | h
      · left
        rw [h]
      · right
        exact List.mem_map_of_mem (·.pos) h
    · rcases List.mem_cons.mp hx with h | h
      · right
        rw [h]
        simp
      · right
        simp
        right
        exact ⟨x, h, rfl⟩
    · rcases List.mem_cons.mp hx with h | h
      · right
        rw [h]
        simp
      · rcases ih x h with h3 | h3
        · exact Or.inl h3
        · right
          simp only [List.map_cons, List.mem_cons]
          exact Or.inr h3

lemma push_key_mem (l : List Ev) (s : Bool) (p : Rat) :
    ∀ x ∈ div_list_push l s p, key x = (s, p) ∨ key x ∈ l.map key := by
  induction l with
  | nil =>
    intro x hx
    simp [div_list_push] at hx
    simp [hx, key]
  | cons e rest ih =>
    intro x hx
    unfold div_list_push at hx
    split_ifs at hx with h1 h2
    · rcases List.mem_cons.mp hx with h | h
      · left
        rw [h, key]
      · right
        exact List.mem_map_of_mem key h
    · rcases List.mem_cons.mp hx with h | h
      · left
        rw [h]
        unfold key
        simp only
        rw [h2.2, h2.1]
      · right
        simp only [List.map_cons, List.mem_cons]
        exact Or.inr (List.mem_map_of_mem key h)
    · rcases List.mem_cons.mp hx with h | h
      · right
        rw [h]
        simp
      · rcases ih x h with h3 | h3
        · exact Or.inl h3
        · right
          simp only [List.map_cons, List.mem_cons]
          exact Or.inr h3

lemma push_key_super (l : List Ev) (s : Bool) (p : Rat) :
    ∀ k ∈ l.map key, k ∈ (div_list_push l s p).map key := by
  induction l with
  | nil => simp
  | cons e rest ih =>
    intro k hk
    unfold div_list_push
    split_ifs with h1 h2
    · simp only [List.map_cons] at hk ⊢
      exact List.mem_cons_of_mem _ hk
    · simp only [List.map_cons, List.mem_cons] at hk ⊢
      rcases hk with h | h
      · left
        rw [h]
        rfl
      · exact Or.inr h
    · simp only [List.map_cons, List.mem_cons] at hk ⊢
      rcases hk with h | h
      · exact Or.inl h
      · exact Or.inr (ih k h)

lemma push_key_self (l : List Ev) (s : Bool) (p : Rat) :
    (s, p) ∈ (div_list_push l s p).map key := by
  induction l with
  | nil => simp [div_list_push, key]
  | cons e rest ih =>
    unfold div_list_push
    split_ifs with h1 h2
    · simp [key]
    · simp only [List.map_cons, List.mem_cons]
      left
      unfold key
      simp only
      rw [h2.2, h2.1]
    · simp only [List.map_cons, List.mem_cons]
      exact Or.inr ih

lemma push_freq_pos (l : List Ev) (s : Bool) (p : Rat) (hf : ∀ e ∈ l, 1 ≤ e.freq) :
    ∀ x ∈ div_list_push l s p, 1 ≤ x.freq := by
  induction l with
  | nil =>
    intro x hx
    simp [div_list_push] at hx
    simp [hx]
  | cons e rest ih =>
    intro x hx
    unfold div_list_push at hx
    split_ifs at hx with h1 h2
    · rcases List.mem_cons.mp hx with h | h
      · rw [h]
      · exact hf x h
    · rcases List.mem_cons.mp hx with h | h
      · rw [h]
        simp
      · exact hf x (List.mem_cons_of_mem e h)
    · rcases List.mem_cons.mp hx with h | h
      · exact hf x (by rw [h]; simp)
      · exact ih (fun e2 he2 => hf e2 (List.mem_cons_of_mem e he2)) x h

lemma push_sorted (l : List Ev) (s : Bool) (p : Rat) (hs : EvSorted l) :
    EvSorted (div_list_push l s p) := by
  induction l with
  | nil =>
    simp [div_list_push, EvSorted]
  | cons e rest ih =>
    rcases List.pairwise_cons.mp hs with ⟨he, hrest⟩
    unfold div_list_push
    split_ifs with h1 h2
    · refine List.pairwise_cons.mpr ⟨?_, hs⟩
      intro b hb
      rcases List.mem_cons.mp hb with h | h
      · rw [h]
        exact le_of_lt h1
      · exact le_trans (le_of_lt h1) (he b h)
    · exact List.pairwise_cons.mpr ⟨fun b hb => he b hb, hrest⟩
    · refine List.pairwise_cons.mpr ⟨?_, ih hrest⟩
      intro b hb
      rcases push_pos_mem rest s p b hb with h | h
      · rw [h]
        exact le_of_not_lt h1
      · rcases List.mem_map.mp h with ⟨y, hy, hye⟩
        rw [← hye]
        exact he y hy

lemma push_keyuniq (l : List Ev) (s : Bool) (p : Rat) (hs : EvSorted l) (hu : KeyUniq l) :
    KeyUniq (div_list_push l s p) := by
  induction l with
  | nil => simp [div_list_push, KeyUniq]
  | cons e rest ih =>
    rcases List.pairwise_cons.mp hs with ⟨hse, hsrest⟩
    rcases List.pairwise_cons.mp hu with ⟨hue, hurest⟩
    unfold div_list_push
    split_ifs with h1 h2
    · refine List.pairwise_cons.mpr ⟨?_, hu⟩
      intro b hb
      have hbp : p < b.pos := by
        rcases List.mem_cons.mp hb with h | h
        · rw [h]
          exact h1
        · exact lt_of_lt_of_le h1 (hse b h)
      unfold key
      intro hcontra
      have : p = b.pos := congrArg Prod.snd hcontra
      exact absurd this (ne_of_lt hbp)
    · refine List.pairwise_cons.mpr ⟨?_, hurest⟩
      intro b hb
      have : key { e with freq := e.freq + 1 } = key e := rfl
      rw [this]
      exact hue b hb
    · refine List.pairwise_cons.mpr ⟨?_, ih hsrest hurest⟩
      intro b hb
      rcases push_key_mem rest s p b hb with h | h
      · rw [h]
        unfold key
        intro hcontra
        have hp : e.pos = p := congrArg Prod.snd hcontra
        have hl : e.left = s := congrArg Prod.fst hcontra
        exact h2 ⟨hp, hl⟩
      · rcases List.mem_map.mp h with ⟨y, hy, hye⟩
        rw [← hye]
        exact hue y hy

lemma push_ssum (l : List Ev) (s : Bool) (p : Rat) :
    ssum (div_list_push l s p) = ssum l + (if s then 1 else -1) := by
  induction l with
  | nil =>
    unfold div_list_push ssum
    cases s <;>
      simp only [List.map_cons, List.map_nil, List.sum_cons, List.sum_nil,
        Bool.false_eq_true, if_false, if_true, eq_self_iff_true] <;>
      push_cast
  | cons e rest ih =>
    by_cases h1 : e.pos > p
    · rw [show div_list_push (e :: rest) s p = ⟨s, p, 1⟩ :: e :: rest from by
        unfold div_list_push
        rw [if_pos h1]]
      unfold ssum
      simp only [List.map_cons, List.sum_cons]
      cases s <;>
        simp only [Bool.false_eq_true, if_false, if_true, eq_self_iff_true] <;>
        push_cast <;> ring
    · by_cases h2 : e.pos = p ∧ e.left = s
      · rw [show div_list_push (e :: rest) s p = { e with freq := e.freq + 1 } :: rest from by
          unfold div_list_push
          rw [if_neg h1, if_pos h2]]
        unfold ssum
        simp only [List.map_cons, List.sum_cons]
        rw [← h2.2]
        cases hL : e.left <;>
          simp only [Bool.false_eq_true, if_false, if_true, eq_self_iff_true] <;>
          push_cast <;> ring
      · rw [show div_list_push (e :: rest) s p = e :: div_list_push rest s p from by
          rw [div_list_push, if_neg h1, if_neg h2]]
        unfold ssum at ih ⊢
        simp only [List.map_cons, List.sum_cons, ih]
        ring

lemma push_keys_iff (l : List Ev) (s : Bool) (p : Rat) (k : Bool × Rat) :
    k ∈ (div_list_push l s p).map key ↔ (k = (s, p) ∨ k ∈ l.map key) := by
  constructor
  · intro hk
    rcases List.mem_map.mp hk with ⟨x, hx, hxe⟩
    rcases push_key_mem l s p x hx with h | h
    · left
      rw [← hxe, h]
    · right
      rw [← hxe]
      exact h
  · intro hk
    rcases hk with h | h
    · rw [h]
      exact push_key_self l s p
    · exact push_key_super l s p k h

lemma build_aux_sorted (ps : List (Bool × Rat)) :
    ∀ l, EvSorted l → EvSorted (ps.foldl (fun l p => div_list_push l p.1 p.2) l) := by
  induction ps with
  | nil => intro l hl; exact hl
  | cons p ps ih => intro l hl; exact ih _ (push_sorted _ _ _ hl)

lemma build_aux_uniq (ps : List (Bool × Rat)) :
    ∀ l, EvSorted l → KeyUniq l →
      KeyUniq (ps.foldl (fun l p => div_list_push l p.1 p.2) l) := by
  induction ps with
  | nil => intro l _ hu; exact hu
  | cons p ps ih => intro l hs hu; exact ih _ (push_sorted _ _ _ hs) (push_keyuniq _ _ _ hs hu)

lemma build_aux_freq (ps : List (Bool × Rat)) :
    ∀ l, (∀ e ∈ l, 1 ≤ e.freq) →
      ∀ e ∈ ps.foldl (fun l p => div_list_push l p.1 p.2) l, 1 ≤ e.freq := by
  induction ps with
  | nil => intro l hl; exact hl
  | cons p ps ih => intro l hl; exact ih _ (push_freq_pos _ _ _ hl)

lemma build_aux_ssum (ps : List (Bool × Rat)) :
    ∀ l, ssum (ps.foldl (fun l p => div_list_push l p.1 p.2) l) =
      ssum l + (ps.map fun p => if p.1 then (1 : Int) else -1).sum := by
  induction ps with
  | nil => intro l; simp
  | cons p ps ih =>
    intro l
    show ssum (ps.foldl _ (div_list_push l p.1 p.2)) = _
    rw [ih, push_ssum]
    simp only [List.map_cons, List.sum_cons]
    ring

lemma build_aux_keys (ps : List (Bool × Rat)) :
    ∀ l k, (k ∈ (ps.foldl (fun l p => div_list_push l p.1 p.2) l).map key ↔
      k ∈ l.map key ∨ k ∈ ps) := by
  induction ps with
  | nil => intro l k; simp
  | cons p ps ih =>
    intro l k
    show k ∈ (ps.foldl _ (div_list_push l p.1 p.2)).map key ↔ _
    rw [ih, push_keys_iff]
    simp only [List.mem_cons]
    constructor
    · rintro (⟨h | h⟩ | h)
      · right; left; rw [h]
      · left; exact h
      · right; right; exact h
    · rintro (h | h | h)
      · exact Or.inl (Or.inr h)
      · exact Or.inl (Or.inl (by rw [h]))
      · exact Or.inr h

lemma build_sorted (ps : List (Bool × Rat)) : EvSorted (build_div_list ps) :=
  build_aux_sorted ps [] (by simp [EvSorted])

lemma build_uniq (ps : List (Bool × Rat)) : KeyUniq (build_div_list ps) :=
  build_aux_uniq ps [] (by simp [EvSorted]) (by simp [KeyUniq])

lemma build_freq (ps : List (Bool × Rat)) : ∀ e ∈ build_div_list ps, 1 ≤ e.freq :=
  build_aux_freq ps [] (by simp)

lemma build_ssum (ps : List (Bool × Rat)) :
    ssum (build_div_list ps) = (ps.map fun p => if p.1 then (1 : Int) else -1).sum := by
  have := build_aux_ssum ps []
  simpa [ssum] using this

lemma build_keys (ps : List (Bool × Rat)) (k : Bool × Rat) :
    k ∈ (build_div_list ps).map key ↔ k ∈ ps := by
  have := build_aux_keys ps [] k
  simpa using this

lemma sorted_head_le (l : List Ev) (d : Ev) (hs : EvSorted l) :
    ∀ e ∈ l, (l.headD d).pos ≤ e.pos := by
  cases l with
  | nil => simp
  | cons g t =>
    intro e he
    rcases List.mem_cons.mp he with h | h
    · simp [h]
    · exact (List.pairwise_cons.mp hs).1 e h

lemma getLastD_eq_getLast {α : Type} (l : List α) (d : α) (h : l ≠ []) :
    l.getLastD d = l.getLast h := by
  rw [List.getLastD_eq_getLast?, List.getLast?_eq_getLast l h]
  rfl

lemma getLastD_mem (l : List Ev) (d : Ev) (h : l ≠ []) : l.getLastD d ∈ l := by
  rw [getLastD_eq_getLast l d h]
  exact List.getLast_mem h

lemma sorted_le_last (l : List Ev) (d : Ev) (hs : EvSorted l) :
    ∀ e ∈ l, e.pos ≤ (l.getLastD d).pos := by
  induction l with
  | nil => simp
  | cons g t ih =>
    intro e he
    rcases t with _ | ⟨g2, t2⟩
    · simp at he
      simp [he]
    · have hlast : (g :: g2 :: t2).getLastD d = (g2 :: t2).getLastD d := by
        simp [List.getLastD]
      rw [hlast]
      rcases List.mem_cons.mp he with h | h
      · rw [h]
        have hmem : (g2 :: t2).getLastD d ∈ g2 :: t2 := getLastD_mem _ d (by simp)
        exact (List.pairwise_cons.mp hs).1 _ hmem
      · exact ih ((List.pairwise_cons.mp hs).2) e h

lemma runlist_right_mate {c : List (Bool × Rat)} (h : RunList c) :
    ∀ p, (false, p) ∈ c → ∃ q, (true, q) ∈ c ∧ q < p := by
  induction h with
  | nil => simp
  | pair lp rp rest hlt hr ih =>
    intro p hp
    rcases List.mem_cons.mp hp with h1 | h1
    · cases h1
    · rcases List.mem_cons.mp h1 with h2 | h2
      · have : p = rp := by
          have := congrArg Prod.snd h2
          simpa using this
        exact ⟨lp, by simp, by rw [this]; exact hlt⟩
      · rcases ih p h2 with ⟨q, hq, hql⟩
        exact ⟨q, by simp [hq], hql⟩

lemma runlist_left_mate {c : List (Bool × Rat)} (h : RunList c) :
    ∀ q, (true, q) ∈ c → ∃ p, (false, p) ∈ c ∧ q < p := by
  induction h with
  | nil => simp
  | pair lp rp rest hlt hr ih =>
    intro q hq
    rcases List.mem_cons.mp hq with h1 | h1
    · have : q = lp := by
        have := congrArg Prod.snd h1
        simpa using this
      exact ⟨rp, by simp, by rw [this]; exact hlt⟩
    · rcases List.mem_cons.mp h1 with h2 | h2
      · cases h2
      · rcases ih q h2 with ⟨p, hp, hpl⟩
        exact ⟨p, by simp [hp], hpl⟩

lemma runlist_sign_sum {c : List (Bool × Rat)} (h : RunList c) :
    (c.map fun p => if p.1 then (1 : Int) else -1).sum = 0 := by
  induction h with
  | nil => simp
  | pair lp rp rest hlt hr ih =>
    simp only [List.map_cons, List.sum_cons, ih]
    norm_num

lemma ssum_append (a b : List Ev) : ssum (a ++ b) = ssum a + ssum b := by
  unfold ssum
  rw [List.map_append, List.sum_append]

lemma ssum_zeroed (r : List Ev) : ssum (r.map zero_freq) = 0 := by
  induction r with
  | nil => simp [ssum]
  | cons e t ih =>
    unfold ssum at ih ⊢
    simp only [List.map_cons, List.sum_cons]
    rw [ih]
    unfold zero_freq
    split_ifs <;> simp

lemma ssum_all_left (r : List Ev) (h : ∀ x ∈ r, x.left = true) :
    ssum r = (((r.map (·.freq)).sum : Nat) : Int) := by
  induction r with
  | nil => simp [ssum]
  | cons e t ih =>
    unfold ssum at ih ⊢
    simp only [List.map_cons, List.sum_cons]
    rw [ih (fun x hx => h x (List.mem_cons_of_mem e hx)), if_pos (h e (by simp))]
    push_cast
    ring

lemma ssum_all_right (r : List Ev) (h : ∀ x ∈ r, x.left = false) :
    ssum r = -(((r.map (·.freq)).sum : Nat) : Int) := by
  induction r with
  | nil => simp [ssum]
  | cons e t ih =>
    unfold ssum at ih ⊢
    simp only [List.map_cons, List.sum_cons]
    have he : ¬ (e.left = true) := by
      rw [h e (by simp)]
      simp
    rw [ih (fun x hx => h x (List.mem_cons_of_mem e hx)), if_neg he]
    push_cast
    ring

lemma ssum_combine (l : List Ev) : ssum (combine l) = ssum l := by
  induction l using combine.induct with
  | case1 => simp [combine]
  | case2 e rest he ih =>
    rw [combine, if_pos he]
    have hsplit : rest.takeWhile (·.left) ++ rest.dropWhile (·.left) = rest :=
      List.takeWhile_append_dropWhile _ _
    have hrun : ∀ x ∈ rest.takeWhile (·.left), x.left = true := by
      intro x hx
      simpa using List.mem_takeWhile_imp hx
    calc ssum ({ e with freq := e.freq + ((rest.takeWhile (·.left)).map (·.freq)).sum } ::
          ((rest.takeWhile (·.left)).map zero_freq ++ combine (rest.dropWhile (·.left))))
        = (if e.left = true then ((e.freq + ((rest.takeWhile (·.left)).map (·.freq)).sum : Nat) : Int)
            else -((e.freq + ((rest.takeWhile (·.left)).map (·.freq)).sum : Nat) : Int)) +
          (ssum ((rest.takeWhile (·.left)).map zero_freq) +
            ssum (combine (rest.dropWhile (·.left)))) := by
          unfold ssum
          rw [List.map_cons, List.sum_cons, List.map_append, List.sum_append]
      _ = ((e.freq : Int) + (((rest.takeWhile (·.left)).map (·.freq)).sum : Int)) +
          (0 + ssum (rest.dropWhile (·.left))) := by
          rw [if_pos he, ssum_zeroed, ih]
          push_cast [List.map_map, Function.comp_def]
          ring
      _ = ssum (e :: rest) := by
          conv_rhs => rw [← hsplit]
          show _ = ssum (e :: (rest.takeWhile (·.left) ++ rest.dropWhile (·.left)))
          have : ssum (e :: (rest.takeWhile (·.left) ++ rest.dropWhile (·.left))) =
              (if e.left = true then (e.freq : Int) else -(e.freq : Int)) +
                (ssum (rest.takeWhile (·.left)) + ssum (rest.dropWhile (·.left))) := by
            unfold ssum
            rw [List.map_cons, List.sum_cons, List.map_append, List.sum_append]
          rw [this, if_pos he, ssum_all_left _ hrun]
          push_cast [List.map_map, Function.comp_def]
          ring
  | case3 e rest he ih =>
    rw [combine, if_neg he]
    have hsplit : rest.takeWhile (fun x => !x.left) ++ rest.dropWhile (fun x => !x.left) = rest :=
      List.takeWhile_append_dropWhile _ _
    have hrun : ∀ x ∈ e :: rest.takeWhile (fun x => !x.left), x.left = false := by
      intro x hx
      rcases List.mem_cons.mp hx with h1 | h1
      · rw [h1]
        simpa using he
      · have := List.mem_takeWhile_imp h1
        simpa using this
    have hne : (e :: rest.takeWhile (fun x => !x.left)) ≠ [] := by simp
    have hlastleft : ((e :: rest.takeWhile (fun x => !x.left)).getLastD e).left = false :=
      hrun _ (getLastD_mem _ _ hne)
    calc ssum (((e :: rest.takeWhile (fun x => !x.left)).dropLast.map zero_freq) ++
          ({ (e :: rest.takeWhile (fun x => !x.left)).getLastD e with
              freq := ((e :: rest.takeWhile (fun x => !x.left)).map (·.freq)).sum } ::
            combine (rest.dropWhile (fun x => !x.left))))
        = ssum ((e :: rest.takeWhile (fun x => !x.left)).dropLast.map zero_freq) +
          ((if ((e :: rest.takeWhile (fun x => !x.left)).getLastD e).left = true
            then ((((e :: rest.takeWhile (fun x => !x.left)).map (·.freq)).sum : Nat) : Int)
            else -((((e :: rest.takeWhile (fun x => !x.left)).map (·.freq)).sum : Nat) : Int)) +
            ssum (combine (rest.dropWhile (fun x => !x.left)))) := by
          rw [ssum_append]
          unfold ssum
          rw [List.map_cons, List.sum_cons]
      _ = 0 + (-((((e :: rest.takeWhile (fun x => !x.left)).map (·.freq)).sum : Nat) : Int) +
            ssum (rest.dropWhile (fun x => !x.left))) := by
          rw [ssum_zeroed, ih, if_neg (by rw [hlastleft]; simp)]
      _ = ssum (e :: rest) := by
          conv_rhs => rw [← hsplit]
          show _ = ssum (e :: (rest.takeWhile (fun x => !x.left) ++ rest.dropWhile (fun x => !x.left)))
          have h2 : ssum (e :: (rest.takeWhile (fun x => !x.left) ++
              rest.dropWhile (fun x => !x.left))) =
              ssum (e :: rest.takeWhile (fun x => !x.left)) +
                ssum (rest.dropWhile (fun x => !x.left)) := by
            unfold ssum
            simp only [List.map_cons, List.sum_cons, List.map_append, List.sum_append, add_assoc]
          rw [h2, ssum_all_right _ hrun]
          ring

lemma ssum_compact (l : List Ev) : ssum (compact l) = ssum l := by
  induction l with
  | nil => rfl
  | cons e t ih =>
    unfold compact at ih ⊢
    by_cases h : e.freq = 0
    · rw [List.filter_cons_of_neg (by simp [h])]
      unfold ssum at ih ⊢
      simp only [List.map_cons, List.sum_cons]
      rw [ih, h]
      split_ifs <;> simp
    · rw [List.filter_cons_of_pos (by simp [h])]
      unfold ssum at ih ⊢
      simp only [List.map_cons, List.sum_cons]
      rw [ih]

lemma wind_aux (l : List Ev) : ∀ w : Int,
    l.foldl (fun w e => if e.left then w + (e.freq : Int) else w - (e.freq : Int)) w
      = w + ssum l := by
  induction l with
  | nil => intro w; simp [ssum]
  | cons e t ih =>
    intro w
    rw [List.foldl_cons, ih]
    unfold ssum
    simp only [List.map_cons, List.sum_cons]
    split_ifs <;> ring

lemma wind_eq_ssum (l : List Ev) : wind_after l = ssum l := by
  unfold wind_after
  rw [wind_aux]
  ring

lemma ssum_sanitize (l : List Ev) : ssum (sanitize_positions l) = ssum l := by
  unfold sanitize_positions
  rw [ssum_compact, ssum_combine]

lemma compact_zeroed (r : List Ev) : compact (r.map zero_freq) = [] := by
  induction r with
  | nil => rfl
  | cons e t ih =>
    unfold compact at ih ⊢
    rw [List.map_cons, List.filter_cons_of_neg (by simp [zero_freq])]
    exact ih

lemma getLastD_append {α : Type} (a b : List α) (d d' : α) (h : b ≠ []) :
    (a ++ b).getLastD d = b.getLastD d' := by
  rw [List.getLastD_eq_getLast?, List.getLastD_eq_getLast?,
    List.getLast?_append_of_ne_nil a h, List.getLast?_eq_getLast b h]
  rfl

lemma compact_append (a b : List Ev) : compact (a ++ b) = compact a ++ compact b := by
  simp [compact]

lemma compact_cons_pos (e : Ev) (t : List Ev) (h : e.freq ≠ 0) :
    compact (e :: t) = e :: compact t := by
  unfold compact
  rw [List.filter_cons_of_pos (by simp [h])]

lemma sanitize_head_left (l : List Ev) (hne : l ≠ [])
    (hhead : (l.headD dEv).left = true) (hf : ∀ e ∈ l, 1 ≤ e.freq) :
    sanitize_positions l ≠ [] ∧ ((sanitize_positions l).headD dEv).left = true := by
  rcases l with _ | ⟨e, rest⟩
  · exact absurd rfl hne
  have he : e.left = true := by simpa using hhead
  have hfe : 1 ≤ e.freq := hf e (by simp)
  unfold sanitize_positions
  rw [combine, if_pos he]
  unfold compact
  rw [List.filter_cons_of_pos (by simp; omega)]
  refine ⟨by simp, ?_⟩
  simpa using he

lemma sanitize_last_right (l : List Ev) :
    (∀ e ∈ l, 1 ≤ e.freq) → l ≠ [] → (l.getLastD dEv).left = false →
    sanitize_positions l ≠ [] ∧ ((sanitize_positions l).getLastD dEv).left = false := by
  unfold sanitize_positions
  induction l using combine.induct with
  | case1 =>
    intro _ hne _
    exact absurd rfl hne
  | case2 e rest he ih =>
    intro hf _ hlast
    have hlast' : (rest.getLastD e).left = false := by
      rw [List.getLastD_cons] at hlast
      exact hlast
    have hrne : rest ≠ [] := by
      intro h0
      rw [h0] at hlast'
      simp only [List.getLastD] at hlast'
      rw [he] at hlast'
      exact Bool.noConfusion hlast'
    have hsplit : rest.takeWhile (·.left) ++ rest.dropWhile (·.left) = rest :=
      List.takeWhile_append_dropWhile _ _
    have hRne : rest.dropWhile (·.left) ≠ [] := by
      intro h0
      have hTall : ∀ x ∈ rest, x.left = true := by
        intro x hx
        rw [← hsplit, h0, List.append_nil] at hx
        simpa using List.mem_takeWhile_imp hx
      have := hTall (rest.getLastD e) (getLastD_mem rest e hrne)
      rw [hlast'] at this
      exact Bool.noConfusion this
    have hlastR : ((rest.dropWhile (·.left)).getLastD dEv).left = false := by
      rw [← hsplit, getLastD_append _ _ e dEv hRne] at hlast'
      exact hlast'
    have hfR : ∀ x ∈ rest.dropWhile (·.left), 1 ≤ x.freq := fun x hx =>
      hf x (List.mem_cons_of_mem e ((List.dropWhile_sublist _).subset hx))
    rcases ih hfR hRne hlastR with ⟨ihne, ihlast⟩
    have hfe : 1 ≤ e.freq := hf e (by simp)
    rw [combine, if_pos he, compact_cons_pos _ _ (by simp; omega), compact_append,
      compact_zeroed, List.nil_append]
    refine ⟨by simp, ?_⟩
    rw [List.getLastD_cons, getLastD_eq_getLast _ _ ihne, ← getLastD_eq_getLast _ dEv ihne]
    exact ihlast
  | case3 e rest he ih =>
    intro hf hne hlast
    have hfe : 1 ≤ e.freq := hf e (by simp)
    have hrunall : ∀ x ∈ e :: rest.takeWhile (fun x => !x.left), x.left = false := by
      intro x hx
      rcases List.mem_cons.mp hx with h1 | h1
      · rw [h1]
        simpa using he
      · simpa using List.mem_takeWhile_imp h1
    have hKleft : ((e :: rest.takeWhile (fun x => !x.left)).getLastD e).left = false :=
      hrunall _ (getLastD_mem _ _ (by simp))
    have hKfreq : ((e :: rest.takeWhile (fun x => !x.left)).map (·.freq)).sum ≠ 0 := by
      rw [List.map_cons, List.sum_cons]
      omega
    rw [combine, if_neg he, compact_append, compact_zeroed, List.nil_append,
      compact_cons_pos _ _ hKfreq]
    by_cases hR : rest.dropWhile (fun x => !x.left) = []
    · rw [hR, combine]
      refine ⟨by simp, ?_⟩
      simp only [compact, List.filter_nil, List.getLastD]
      exact hKleft
    · have hlast' : (rest.getLastD e).left = false := by
        rw [List.getLastD_cons] at hlast
        exact hlast
      have hsplit : rest.takeWhile (fun x => !x.left) ++ rest.dropWhile (fun x => !x.left)
          = rest := List.takeWhile_append_dropWhile _ _
      have hlastR : ((rest.dropWhile (fun x => !x.left)).getLastD dEv).left = false := by
        rw [← hsplit, getLastD_append _ _ e dEv hR] at hlast'
        exact hlast'
      have hfR : ∀ x ∈ rest.dropWhile (fun x => !x.left), 1 ≤ x.freq := fun x hx =>
        hf x (List.mem_cons_of_mem e ((List.dropWhile_sublist _).subset hx))
      rcases ih hfR hR hlastR with ⟨ihne, ihlast⟩
      refine ⟨by simp, ?_⟩
      rw [List.getLastD_cons, getLastD_eq_getLast _ _ ihne, ← getLastD_eq_getLast _ dEv ihne]
      exact ihlast

lemma build_head_left (ps : List (Bool × Rat)) (h : RunList ps)
    (hne : build_div_list ps ≠ []) :
    ((build_div_list ps).headD dEv).left = true := by
  by_contra hc
  have hhead_mem : (build_div_list ps).headD dEv ∈ build_div_list ps := by
    rcases hB : build_div_list ps with _ | ⟨x, t⟩
    · exact absurd hB hne
    · simp
  have hkey : key ((build_div_list ps).headD dEv) ∈ ps :=
    (build_keys ps _).mp (List.mem_map.mpr ⟨_, hhead_mem, rfl⟩)
  have hleft : ((build_div_list ps).headD dEv).left = false := by
    cases hb : ((build_div_list ps).headD dEv).left
    · rfl
    · exact absurd hb hc
  have hmem : (false, ((build_div_list ps).headD dEv).pos) ∈ ps := by
    have hk : key ((build_div_list ps).headD dEv)
        = (false, ((build_div_list ps).headD dEv).pos) := by
      rw [key, hleft]
    rwa [hk] at hkey
  rcases runlist_right_mate h _ hmem with ⟨q, hq, hql⟩
  rcases List.mem_map.mp ((build_keys ps _).mpr hq) with ⟨ev, hev, hevk⟩
  have hevpos : ev.pos = q := congrArg Prod.snd hevk
  have := sorted_head_le (build_div_list ps) dEv (build_sorted ps) ev hev
  rw [hevpos] at this
  exact absurd this (not_le.mpr hql)

lemma build_last_right (ps : List (Bool × Rat)) (h : RunList ps)
    (hne : build_div_list ps ≠ []) :
    ((build_div_list ps).getLastD dEv).left = false := by
  by_contra hc
  have hlast_mem : (build_div_list ps).getLastD dEv ∈ build_div_list ps :=
    getLastD_mem _ _ hne
  have hkey : key ((build_div_list ps).getLastD dEv) ∈ ps :=
    (build_keys ps _).mp (List.mem_map.mpr ⟨_, hlast_mem, rfl⟩)
  have hleft : ((build_div_list ps).getLastD dEv).left = true := by
    cases hb : ((build_div_list ps).getLastD dEv).left
    · exact absurd hb hc
    · rfl
  have hmem : (true, ((build_div_list ps).getLastD dEv).pos) ∈ ps := by
    have hk : key ((build_div_list ps).getLastD dEv)
        = (true, ((build_div_list ps).getLastD dEv).pos) := by
      rw [key, hleft]
    rwa [hk] at hkey
  rcases runlist_left_mate h _ hmem with ⟨p, hp, hpl⟩
  rcases List.mem_map.mp ((build_keys ps _).mpr hp) with ⟨ev, hev, hevk⟩
  have hevpos : ev.pos = p := congrArg Prod.snd hevk
  have := sorted_le_last (build_div_list ps) dEv (build_sorted ps) ev hev
  rw [hevpos] at this
  exact absurd this (not_le.mpr hpl)

lemma sanitize_runlist (ps : List (Bool × Rat)) (h : RunList ps) :
    sanitize_positions (build_div_list ps) = [] ∨
      (((sanitize_positions (build_div_list ps)).headD dEv).left = true ∧
       ((sanitize_positions (build_div_list ps)).getLastD dEv).left = false ∧
       wind_after (sanitize_positions (build_div_list ps)) = 0) := by
  by_cases hs : sanitize_positions (build_div_list ps) = []
  · exact Or.inl hs
  · right
    have hBne : build_div_list ps ≠ [] := by
      intro h0
      apply hs
      rw [h0]
      unfold sanitize_positions
      rw [combine]
      rfl
    have hhead := (sanitize_head_left (build_div_list ps) hBne
      (build_head_left ps h hBne) (build_freq ps)).2
    have hlast := (sanitize_last_right (build_div_list ps) (build_freq ps) hBne
      (build_last_right ps h hBne)).2
    refine ⟨hhead, hlast, ?_⟩
    rw [wind_eq_ssum, ssum_sanitize, build_ssum]
    exact runlist_sign_sum h

/-- A character whose quad is horizontally reversed: the left edge the
walker reads (10) lies right of the right edge it reads (5). -/
def qC8 : Quad := ⟨⟨10, 0⟩, ⟨5, 0⟩, ⟨10, 1⟩, ⟨5, 1⟩⟩

/-- A one-line text block holding only the reversed-quad character. -/
def cexBlockC8 : Block :=
  .text ⟨0, 0, 20, 10⟩ [⟨⟨0, 0, 20, 10⟩, 0, ⟨1, 0⟩, [⟨65, qC8⟩]⟩]

/-- A well-ordered character quad: left edge 0, right edge 5. -/
def qW : Quad := ⟨⟨0, 0⟩, ⟨5, 0⟩, ⟨0, 1⟩, ⟨5, 1⟩⟩

/-- A one-line text block holding only the well-ordered character. -/
def wBlockC8 : Block :=
  .text ⟨0, 0, 20, 10⟩ [⟨⟨0, 0, 20, 10⟩, 0, ⟨1, 0⟩, [⟨65, qW⟩]⟩]

/-- C8 counterexample: the X event list the extent collector produces for
the reversed-quad block, once sanitized, begins with a RIGHT-sided entry,
so the first assertion of make_table_positions would fire on it. -/
theorem sanitize_head_right_cex :
    ((sanitize_positions (build_div_list (x_pushes [cexBlockC8]))).headD dEv).left
      = false := by
  have hx : x_pushes [cexBlockC8] = [(true, 10), (false, 5)] := by
    norm_num [x_pushes, lines_of_blocks, cexBlockC8, line_x_events, lpos_of, rpos_of, qC8,
      min_def, max_def]
  rw [hx]
  norm_num [build_div_list, div_list_push, sanitize_positions, combine, compact, dEv,
    List.takeWhile, List.dropWhile, zero_freq, List.filter]

/-- C8 (amended): provided the chronological X and Y extent pushes of the
level form well-ordered left/right pairs — each run-opening left edge
strictly smaller than the matching closing right edge, the shape every
non-degenerate line produces — the sanitized divider list of each axis is
either empty, or begins with a left-sided entry, ends with a right-sided
entry, and a full winding walk over it returns to wind = 0, so the
assertions of make_table_positions cannot fire.  Without that ordering
hypothesis the property fails (see the counterexample). -/
theorem sanitized_lists_closed (blocks : List Block)
    (hx : RunList (x_pushes blocks)) (hy : RunList (y_pushes blocks)) :
    (sanitize_positions (build_div_list (x_pushes blocks)) = [] ∨
      (((sanitize_positions (build_div_list (x_pushes blocks))).headD dEv).left = true ∧
       ((sanitize_positions (build_div_list (x_pushes blocks))).getLastD dEv).left = false ∧
       wind_after (sanitize_positions (build_div_list (x_pushes blocks))) = 0)) ∧
    (sanitize_positions (build_div_list (y_pushes blocks)) = [] ∨
      (((sanitize_positions (build_div_list (y_pushes blocks))).headD dEv).left = true ∧
       ((sanitize_positions (build_div_list (y_pushes blocks))).getLastD dEv).left = false ∧
       wind_after (sanitize_positions (build_div_list (y_pushes blocks))) = 0)) :=
  ⟨sanitize_runlist _ hx, sanitize_runlist _ hy⟩

/-- C8 witness: the well-ordered block satisfies the pairing hypotheses
and hence its sanitized lists are closed. -/
theorem sanitized_lists_closed_witness :
    RunList (x_pushes [wBlockC8]) ∧ RunList (y_pushes [wBlockC8]) ∧
    ((sanitize_positions (build_div_list (x_pushes [wBlockC8])) = [] ∨
      (((sanitize_positions (build_div_list (x_pushes [wBlockC8]))).headD dEv).left = true ∧
       ((sanitize_positions (build_div_list (x_pushes [wBlockC8]))).getLastD dEv).left = false ∧
       wind_after (sanitize_positions (build_div_list (x_pushes [wBlockC8]))) = 0)) ∧
    (sanitize_positions (build_div_list (y_pushes [wBlockC8])) = [] ∨
      (((sanitize_positions (build_div_list (y_pushes [wBlockC8]))).headD dEv).left = true ∧
       ((sanitize_positions (build_div_list (y_pushes [wBlockC8]))).getLastD dEv).left = false ∧
       wind_after (sanitize_positions (build_div_list (y_pushes [wBlockC8]))) = 0))) := by
  have hxeq : x_pushes [wBlockC8] = [(true, 0), (false, 5)] := by
    norm_num [x_pushes, lines_of_blocks, wBlockC8, line_x_events, lpos_of, rpos_of, qW,
      min_def, max_def]
  have hyeq : y_pushes [wBlockC8] = [(true, 0), (false, 10)] := by
    norm_num [y_pushes, lines_of_blocks, wBlockC8, line_y_events]
  have hx : RunList (x_pushes [wBlockC8]) := by
    rw [hxeq]
    exact RunList.pair 0 5 [] (by norm_num) RunList.nil
  have hy : RunList (y_pushes [wBlockC8]) := by
    rw [hyeq]
    exact RunList.pair 0 10 [] (by norm_num) RunList.nil
  exact ⟨hx, hy, sanitized_lists_closed [wBlockC8] hx hy⟩

/-- The edge-copying loop of make_table_positions: process the remaining
events given the previous event, the winding count, the local_min flag
(never reset by the source) and the running maximum hi; return the
interior divider entries emitted together with the final wind and hi. -/
def mtp_loop : List Ev → Ev → Int → Bool → Int → (List GEntry × Int × Int)
  | [], _, wind, _, hi => ([], wind, hi)
  | e :: rest, prev, wind, lm, hi =>
    if e.left then
      let wind2 := wind + (e.freq : Int)
      let hi2 := if wind2 > hi then wind2 else hi
      let r := mtp_loop rest e wind2 lm hi2
      ((if lm then [⟨(prev.pos + e.pos) / 2, prev.pos, e.pos, wind, 0⟩] else []) ++ r.1,
        r.2)
    else
      mtp_loop rest e (wind - (e.freq : Int)) true hi

/-- make_table_positions from the source: NULL on an empty list;
otherwise the first entry anchors at the first event with window
[min, pos], the winding walk emits one interior entry per left event
seen after a local minimum, and the last entry anchors at the last event
with window [pos, max]; max_uncertainty records the highest winding. -/
def make_table_positions (xs : List Ev) (mn mx : Rat) : Option GridPositions :=
  match xs with
  | [] => none
  | e0 :: _ =>
    let r := mtp_loop xs dEv 0 false 0
    some ⟨⟨e0.pos, mn, e0.pos, 0, 0⟩ :: r.1 ++
        [⟨(xs.getLastD dEv).pos, (xs.getLastD dEv).pos, mx, 0, 0⟩], r.2.2⟩

/-- The combined ordering/uniqueness relation of a div_list. -/
def EvPair (a b : Ev) : Prop := a.pos ≤ b.pos ∧ key a ≠ key b

lemma pairwise_and {α : Type} {R S : α → α → Prop} {l : List α}
    (h1 : l.Pairwise R) (h2 : l.Pairwise S) :
    l.Pairwise fun a b => R a b ∧ S a b := by
  induction l with
  | nil => exact List.Pairwise.nil
  | cons a t ih =>
    rcases List.pairwise_cons.mp h1 with ⟨ha1, ht1⟩
    rcases List.pairwise_cons.mp h2 with ⟨ha2, ht2⟩
    exact List.pairwise_cons.mpr ⟨fun b hb => ⟨ha1 b hb, ha2 b hb⟩, ih ht1 ht2⟩

lemma mtp_main (rest : List Ev) :
    ∀ (prev : Ev) (wind : Int) (lm : Bool) (hi : Int) (lb : Rat),
      List.Pairwise EvPair (prev :: rest) →
      lb ≤ prev.pos →
      (∀ f ∈ rest, f.left = true → lb < f.pos) →
      List.Chain' (· < ·) (lb :: (mtp_loop rest prev wind lm hi).1.map (·.pos)) ∧
      ((mtp_loop rest prev wind lm hi).1 ≠ [] →
        ((mtp_loop rest prev wind lm hi).1.map (·.pos)).getLastD 0
            ≤ ((prev :: rest).getLastD dEv).pos ∧
        (((mtp_loop rest prev wind lm hi).1.map (·.pos)).getLastD 0
            = ((prev :: rest).getLastD dEv).pos →
          ((prev :: rest).getLastD dEv).left = true)) := by
  induction rest with
  | nil =>
    intro prev wind lm hi lb _ _ _
    refine ⟨?_, ?_⟩
    · rw [mtp_loop]
      exact List.chain'_singleton lb
    · intro h
      rw [mtp_loop] at h
      exact absurd rfl h
  | cons e rest' ih =>
    intro prev wind lm hi lb hpp h1 h2
    have hpe : EvPair prev e := (List.pairwise_cons.mp hpp).1 e (by simp)
    have hpp' : List.Pairwise EvPair (e :: rest') := (List.pairwise_cons.mp hpp).2
    by_cases hel : e.left = true
    · by_cases hlm : lm = true
      · -- emitting step
        have heposlt : lb < e.pos := h2 e (by simp) hel
        have hprevle : prev.pos ≤ e.pos := hpe.1
        have hmidgt : lb < (prev.pos + e.pos) / 2 := by linarith
        have hmidle : (prev.pos + e.pos) / 2 ≤ e.pos := by linarith
        have h2' : ∀ f ∈ rest', f.left = true → (prev.pos + e.pos) / 2 < f.pos := by
          intro f hf hfl
          have hef : EvPair e f := (List.pairwise_cons.mp hpp').1 f hf
          have hlt2 : e.pos < f.pos := by
            rcases lt_or_eq_of_le hef.1 with h | h
            · exact h
            · exact absurd (by unfold key; rw [hel, hfl, h]) hef.2
          linarith
        obtain ⟨ihc1, ihc2⟩ := ih e (wind + (e.freq : Int)) lm
          (if wind + (e.freq : Int) > hi then wind + (e.freq : Int) else hi)
          ((prev.pos + e.pos) / 2) hpp' hmidle h2'
        rw [mtp_loop, if_pos hel]
        dsimp only
        rw [if_pos hlm]
        simp only [List.singleton_append, List.map_cons, List.getLastD_cons, ne_eq,
          reduceCtorEq, not_false_eq_true, List.cons_ne_nil, forall_const]
        refine ⟨List.chain'_cons.mpr ⟨hmidgt, ihc1⟩, ?_⟩
        by_cases hr : (mtp_loop rest' e (wind + (e.freq : Int)) lm
            (if wind + (e.freq : Int) > hi then wind + (e.freq : Int) else hi)).1 = []
        · rw [hr]
          simp only [List.map_nil, List.getLastD_nil]
          rcases rest' with _ | ⟨f, rest''⟩
          · simp only [List.getLastD_nil]
            exact ⟨hmidle, fun _ => hel⟩
          · have hlmem : (f :: rest'').getLastD e ∈ f :: rest'' :=
              getLastD_mem _ _ (by simp)
            have hle2 : e.pos ≤ ((f :: rest'').getLastD e).pos :=
              ((List.pairwise_cons.mp hpp').1 _ hlmem).1
            refine ⟨le_trans hmidle hle2, ?_⟩
            intro heq
            have hpeq : prev.pos = e.pos := by linarith
            have heeq : e.pos = ((f :: rest'').getLastD e).pos := by linarith
            by_cases hpl : prev.left = true
            · exact absurd (by unfold key; rw [hpl, hel, hpeq]) hpe.2
            · by_cases hll : ((f :: rest'').getLastD e).left = true
              · exact hll
              · exfalso
                have hplast : EvPair prev ((f :: rest'').getLastD e) :=
                  (List.pairwise_cons.mp hpp).1 _ (List.mem_cons_of_mem e hlmem)
                apply hplast.2
                unfold key
                rw [Bool.not_eq_true] at hpl hll
                rw [hpl, hll, hpeq, heeq]
        · have hmapne : (mtp_loop rest' e (wind + (e.freq : Int)) lm
              (if wind + (e.freq : Int) > hi then wind + (e.freq : Int) else hi)).1.map
              (·.pos) ≠ [] := by simpa using hr
          rw [getLastD_eq_getLast _ _ hmapne, ← getLastD_eq_getLast _ (0 : Rat) hmapne]
          rw [List.getLastD_cons] at ihc2
          exact ihc2 hr
      · -- left event, local_min not yet set: no emission
        have heposlt : lb < e.pos := h2 e (by simp) hel
        have h2' : ∀ f ∈ rest', f.left = true → lb < f.pos := fun f hf hfl =>
          h2 f (List.mem_cons_of_mem e hf) hfl
        obtain ⟨ihc1, ihc2⟩ := ih e (wind + (e.freq : Int)) lm
          (if wind + (e.freq : Int) > hi then wind + (e.freq : Int) else hi)
          lb hpp' (le_of_lt heposlt) h2'
        rw [mtp_loop, if_pos hel]
        dsimp only
        rw [if_neg hlm]
        simp only [List.nil_append, List.getLastD_cons]
        rw [List.getLastD_cons] at ihc2
        exact ⟨ihc1, ihc2⟩
    · -- right event
      have h2' : ∀ f ∈ rest', f.left = true → lb < f.pos := fun f hf hfl =>
        h2 f (List.mem_cons_of_mem e hf) hfl
      obtain ⟨ihc1, ihc2⟩ := ih e (wind - (e.freq : Int)) true hi lb hpp'
        (le_trans h1 hpe.1) h2'
      rw [mtp_loop, if_neg hel]
      simp only [List.getLastD_cons]
      rw [List.getLastD_cons] at ihc2
      exact ⟨ihc1, ihc2⟩

lemma chain'_snoc {α : Type} {R : α → α → Prop} {l : List α} {d x : α}
    (hne : l ≠ []) (hc : List.Chain' R l) (hx : R (l.getLastD d) x) :
    List.Chain' R (l ++ [x]) := by
  apply List.chain'_append.mpr
  refine ⟨hc, List.chain'_singleton x, ?_⟩
  intro a ha y hy
  simp only [List.head?_cons, Option.mem_def, Option.some.injEq] at hy
  rw [List.getLastD_eq_getLast?, List.getLast?_eq_getLast l hne, Option.getD_some] at hx
  rw [List.getLast?_eq_getLast l hne, Option.mem_def, Option.some.injEq] at ha
  rw [ha] at hx
  rw [← hy]
  exact hx

lemma chain'_pos_of_map {l : List GEntry}
    (h : List.Chain' (· < ·) (l.map fun g : GEntry => g.pos)) :
    List.Chain' (fun a b : GEntry => a.pos < b.pos) l :=
  (List.chain'_map fun g : GEntry => g.pos).mp h

lemma mtp_mono (xs : List Ev) (mn mx : Rat)
    (hne : xs ≠ []) (hpp : List.Pairwise EvPair xs)
    (hhead : (xs.headD dEv).left = true)
    (hlast : (xs.getLastD dEv).left = false)
    (hlt : (xs.headD dEv).pos < (xs.getLastD dEv).pos) :
    ∃ g, make_table_positions xs mn mx = some g ∧
      g.list.Chain' (fun a b => a.pos < b.pos) ∧
      (g.list.headD g0).uncertainty = 0 ∧
      (g.list.getLastD g0).uncertainty = 0 := by
  rcases xs with _ | ⟨e0, rest0⟩
  · exact absurd rfl hne
  have he0 : e0.left = true := by simpa using hhead
  have hlt' : e0.pos < ((e0 :: rest0).getLastD dEv).pos := by simpa using hlt
  have hstep : (mtp_loop (e0 :: rest0) dEv 0 false 0).1
      = (mtp_loop rest0 e0 ((0 : Int) + (e0.freq : Int)) false
          (if (0 : Int) + (e0.freq : Int) > 0 then (0 : Int) + (e0.freq : Int) else 0)).1 := by
    rw [mtp_loop, if_pos he0]
    simp
  have h2' : ∀ f ∈ rest0, f.left = true → e0.pos < f.pos := by
    intro f hf hfl
    have hp := (List.pairwise_cons.mp hpp).1 f hf
    rcases lt_or_eq_of_le hp.1 with h | h
    · exact h
    · exact absurd (by unfold key; rw [he0, hfl, h]) hp.2
  obtain ⟨c1, c2⟩ := mtp_main rest0 e0 ((0 : Int) + (e0.freq : Int)) false
    (if (0 : Int) + (e0.freq : Int) > 0 then (0 : Int) + (e0.freq : Int) else 0)
    e0.pos hpp (le_refl _) h2'
  refine ⟨⟨⟨e0.pos, mn, e0.pos, 0, 0⟩ :: (mtp_loop (e0 :: rest0) dEv 0 false 0).1 ++
      [⟨((e0 :: rest0).getLastD dEv).pos, ((e0 :: rest0).getLastD dEv).pos, mx, 0, 0⟩],
    (mtp_loop (e0 :: rest0) dEv 0 false 0).2.2⟩, ?_, ?_, ?_, ?_⟩
  · rfl
  · -- strict monotonicity of the positions
    dsimp only
    rw [hstep]
    apply chain'_pos_of_map
    simp only [List.map_cons, List.map_append, List.map_nil]
    have hgap : ((e0.pos :: (mtp_loop rest0 e0 ((0 : Int) + (e0.freq : Int)) false
        (if (0 : Int) + (e0.freq : Int) > 0 then (0 : Int) + (e0.freq : Int) else 0)).1.map
        (fun x => x.pos)).getLastD 0) < ((e0 :: rest0).getLastD dEv).pos := by
      by_cases hEnil : (mtp_loop rest0 e0 ((0 : Int) + (e0.freq : Int)) false
          (if (0 : Int) + (e0.freq : Int) > 0 then (0 : Int) + (e0.freq : Int) else 0)).1 = []
      · rw [hEnil]
        simp only [List.map_nil, List.getLastD_cons, List.getLastD_nil]
        rw [List.getLastD_cons] at hlt'
        exact hlt'
      · have hmapne : (mtp_loop rest0 e0 ((0 : Int) + (e0.freq : Int)) false
            (if (0 : Int) + (e0.freq : Int) > 0 then (0 : Int) + (e0.freq : Int) else 0)).1.map
            (fun x => x.pos) ≠ [] := by simpa using hEnil
        rw [List.getLastD_cons, getLastD_eq_getLast _ _ hmapne,
          ← getLastD_eq_getLast _ (0 : Rat) hmapne]
        rcases c2 hEnil with ⟨hle, heq⟩
        rcases lt_or_eq_of_le hle with h | h
        · exact h
        · exfalso
          have hcontra := heq h
          rw [hlast] at hcontra
          exact Bool.noConfusion hcontra
    exact chain'_snoc (by simp) c1 hgap
  · rfl
  · dsimp only
    rw [List.getLastD_cons, getLastD_append _ _ _ g0 (by simp)]
    rfl

/-- The sanitized X event list of two runs, the second of zero width:
left at 0, right at 1, left at 2, right at 2. -/
def exC9 : List Ev := [⟨true, 0, 1⟩, ⟨false, 1, 1⟩, ⟨true, 2, 1⟩, ⟨false, 2, 1⟩]

/-- The grid-position list the builder produces for exC9 over [0, 3]. -/
def gC9 : GridPositions := (make_table_positions exC9 0 3).getD ⟨[], 0⟩

/-- C9 counterexample: the builder's output for exC9 is strictly
increasing, but a single reinforcement lookup by the rule walker at
x = 2 — inside the middle divider's [min,max] window, whose upper end
coincides with the last divider's pos — replaces the middle pos by 2 and
destroys strict monotonicity. -/
theorem reinforcement_breaks_mono :
    List.Chain' (fun a b : GEntry => a.pos < b.pos) gC9.list ∧
    ¬ List.Chain' (fun a b : GEntry => a.pos < b.pos)
        (find_grid_pos_with_reinforcement gC9 2 false).2.list := by
  have hg : gC9.list = [⟨0, 0, 0, 0, 0⟩, ⟨3 / 2, 1, 2, 0, 0⟩, ⟨2, 2, 3, 0, 0⟩] := by
    norm_num [gC9, exC9, make_table_positions, mtp_loop, dEv]
  have hupd : (find_grid_pos_with_reinforcement gC9 2 false).2.list
      = [⟨0, 0, 0, 0, 0⟩, ⟨2, 1, 2, 0, 1⟩, ⟨2, 2, 3, 0, 0⟩] := by
    norm_num [find_grid_pos_with_reinforcement, fgpr_aux, reinforce, gC9, exC9,
      make_table_positions, mtp_loop, dEv]
  constructor
  · rw [hg]
    norm_num [List.chain'_cons]
  · rw [hupd]
    intro h
    rcases List.chain'_cons.mp h with ⟨_, h2⟩
    rcases List.chain'_cons.mp h2 with ⟨hbad, _⟩
    norm_num at hbad

/-- C9 (amended): for a sanitized divider event list that is sorted by
position, has no duplicated (side, position) key, starts left-sided, ends
right-sided and spans a non-degenerate range, the grid-position list
make_table_positions builds has strictly increasing pos values, and both
synthetic endpoint dividers carry uncertainty 0.  The monotonicity does
NOT survive reinforcement updates by the rule walker (see the
counterexample), so the claim holds of the builder alone. -/
theorem make_table_positions_mono (xs : List Ev) (mn mx : Rat)
    (hne : xs ≠ []) (hs : EvSorted xs) (hu : KeyUniq xs)
    (hhead : (xs.headD dEv).left = true)
    (hlast : (xs.getLastD dEv).left = false)
    (hlt : (xs.headD dEv).pos < (xs.getLastD dEv).pos) :
    ∃ g, make_table_positions xs mn mx = some g ∧
      g.list.Chain' (fun a b => a.pos < b.pos) ∧
      (g.list.headD g0).uncertainty = 0 ∧
      (g.list.getLastD g0).uncertainty = 0 :=
  mtp_mono xs mn mx hne (pairwise_and hs hu) hhead hlast hlt

/-- C9 witness: exC9 satisfies every hypothesis, and the builder's output
for it is strictly monotone with endpoint uncertainty 0. -/
theorem make_table_positions_mono_witness :
    (exC9 ≠ [] ∧ EvSorted exC9 ∧ KeyUniq exC9 ∧
      (exC9.headD dEv).left = true ∧ (exC9.getLastD dEv).left = false ∧
      (exC9.headD dEv).pos < (exC9.getLastD dEv).pos) ∧
    (∃ g, make_table_positions exC9 0 3 = some g ∧
      g.list.Chain' (fun a b => a.pos < b.pos) ∧
      (g.list.headD g0).uncertainty = 0 ∧
      (g.list.getLastD g0).uncertainty = 0) := by
  have h1 : exC9 ≠ [] := by simp [exC9]
  have h2 : EvSorted exC9 := by
    norm_num [EvSorted, exC9, List.pairwise_cons]
  have h3 : KeyUniq exC9 := by
    norm_num [KeyUniq, exC9, List.pairwise_cons, key]
  have h4 : (exC9.headD dEv).left = true := by norm_num [exC9]
  have h5 : (exC9.getLastD dEv).left = false := by norm_num [exC9]
  have h6 : (exC9.headD dEv).pos < (exC9.getLastD dEv).pos := by norm_num [exC9]
  exact ⟨⟨h1, h2, h3, h4, h5, h6⟩,
    make_table_positions_mono exC9 0 3 h1 h2 h3 h4 h5 h6⟩

lemma coalesce_h_sizeOf (r : Rect) (l : List Block) :
    sizeOf (coalesce_h r l).2 ≤ sizeOf l := by
  induction l generalizing r with
  | nil => simp [coalesce_h]
  | cons b rest ih =>
    cases b with
    | vector bb =>
      rw [coalesce_h]
      split_ifs with h
      · calc sizeOf (coalesce_h (fz_union_rect r bb) rest).2
            ≤ sizeOf rest := ih _
          _ ≤ sizeOf (Block.vector bb :: rest) := by
              simp only [List.cons.sizeOf_spec]
              omega
      · exact le_refl _
    | text bb lines =>
      rw [coalesce_h]
      intro _ h
      exact Block.noConfusion h
    | strukt bb t rs i ch =>
      rw [coalesce_h]
      intro _ h
      exact Block.noConfusion h
    | grid bb =>
      rw [coalesce_h]
      intro _ h
      exact Block.noConfusion h

lemma coalesce_v_sizeOf (r : Rect) (l : List Block) :
    sizeOf (coalesce_v r l).2 ≤ sizeOf l := by
  induction l generalizing r with
  | nil => simp [coalesce_v]
  | cons b rest ih =>
    cases b with
    | vector bb =>
      rw [coalesce_v]
      split_ifs with h
      · calc sizeOf (coalesce_v (fz_union_rect r bb) rest).2
            ≤ sizeOf rest := ih _
          _ ≤ sizeOf (Block.vector bb :: rest) := by
              simp only [List.cons.sizeOf_spec]
              omega
      · exact le_refl _
    | text bb lines =>
      rw [coalesce_v]
      intro _ h
      exact Block.noConfusion h
    | strukt bb t rs i ch =>
      rw [coalesce_v]
      intro _ h
      exact Block.noConfusion h
    | grid bb =>
      rw [coalesce_v]
      intro _ h
      exact Block.noConfusion h

/-- The vector-block step of walk_grid_lines: register the block as a
thin horizontal rule, a thin vertical rule or a rectangle, and on
failure coalesce the following collinear vectors into one retried rule;
return the updated state and the blocks still to walk. -/
def walk_vector (gd : gwd) (r : Rect) (bs : List Block) : gwd × List Block :=
  let w := r.x1 - r.x0
  let h := r.y1 - r.y0
  if w > h ∧ h < 1 then
    let res := add_h_line gd r.x0 r.x1 r.y0 r.y1
    if res.1 then
      let co := coalesce_h r bs
      ((add_h_line res.2 co.1.x0 co.1.x1 co.1.y0 co.1.y1).2, co.2)
    else (res.2, bs)
  else if w < h ∧ w < 1 then
    let res := add_v_line gd r.y0 r.y1 r.x0 r.x1
    if res.1 then
      let co := coalesce_v r bs
      ((add_v_line res.2 co.1.y0 co.1.y1 co.1.x0 co.1.x1).2, co.2)
    else (res.2, bs)
  else
    let res := walk_rect gd r
    if res.1 then
      if w > h then
        let co := coalesce_h r bs
        ((add_h_line res.2 co.1.x0 co.1.x1 co.1.y0 co.1.y1).2, co.2)
      else
        let co := coalesce_v r bs
        ((add_v_line res.2 co.1.y0 co.1.y1 co.1.x0 co.1.x1).2, co.2)
    else (res.2, bs)

lemma walk_vector_sizeOf (gd : gwd) (r : Rect) (bs : List Block) :
    sizeOf (walk_vector gd r bs).2 ≤ sizeOf bs := by
  unfold walk_vector
  dsimp only
  split_ifs <;>
    first
      | exact le_refl _
      | exact coalesce_h_sizeOf r bs
      | exact coalesce_v_sizeOf r bs

/-- walk_grid_lines from the source: walk the level, descending into
structure children, handling each vector block through walk_vector and
resuming after any blocks it coalesced.  The block tree is read, never
written. -/
def walk_grid_lines : gwd → List Block → gwd
  | gd, [] => gd
  | gd, b :: bs =>
    match b with
    | .strukt _ _ _ _ children => walk_grid_lines (walk_grid_lines gd children) bs
    | .vector r =>
      let wv := walk_vector gd r bs
      walk_grid_lines wv.1 wv.2
    | _ => walk_grid_lines gd bs
termination_by _ l => sizeOf l
decreasing_by
  all_goals simp only [List.cons.sizeOf_spec, Block.strukt.sizeOf_spec]
  · omega
  · omega
  · have := walk_vector_sizeOf gd r bs
    omega
  · omega

/-- The per-line character walk of erase_grid_lines, after the leading
spaces have been skipped: a trailing space ends the line, a run of two
or more spaces is skipped wholesale, a single interior space and every
other character bump the cell counters through erase_char. -/
def erase_chars : gwd → List Chr → gwd
  | gd, [] => gd
  | gd, c :: cs =>
    if c.c = 32 then
      if cs = [] then gd
      else if (cs.headD c).c = 32 then
        erase_chars gd (cs.dropWhile fun d => d.c = 32)
      else erase_chars (erase_char gd c.quad) cs
    else erase_chars (erase_char gd c.quad) cs
termination_by _ l => l.length
decreasing_by
  · simp only [List.length_cons]
    exact Nat.lt_succ_of_le (List.Sublist.length_le (List.dropWhile_sublist _))
  · simp
  · simp

/-- The line loop of erase_grid_lines over one text block. -/
def erase_lines (gd : gwd) (ls : List Line) : gwd :=
  ls.foldl (fun g ln => erase_chars g (ln.chars.dropWhile fun d => d.c = 32)) gd

/-- The block walk of erase_grid_lines: structure children are descended
into (with the bounds recomputed from the state, whose divider lists the
erase stage never changes), text blocks entirely outside the table
bounds are skipped, and the other text blocks have their characters
erased.  The block tree is read, never written. -/
def erase_blocks : gwd → Rect → List Block → gwd
  | gd, _, [] => gd
  | gd, bounds, b :: bs =>
    match b with
    | .strukt _ _ _ _ children =>
      erase_blocks (erase_blocks gd (bounds_of gd) children) bounds bs
    | .text bb lines =>
      if bb.x0 ≥ bounds.x1 ∨ bb.y0 ≥ bounds.y1 ∨ bb.x1 ≤ bounds.x0 ∨ bb.y1 ≤ bounds.y0 then
        erase_blocks gd bounds bs
      else erase_blocks (erase_lines gd lines) bounds bs
    | _ => erase_blocks gd bounds bs
termination_by _ _ l => sizeOf l
decreasing_by
  all_goals simp only [List.cons.sizeOf_spec, Block.strukt.sizeOf_spec]
  all_goals omega

/-- erase_grid_lines from the source: compute the table's bounds from
the outermost dividers and walk the level. -/
def erase_grid_lines (gd : gwd) (blocks : List Block) : gwd :=
  erase_blocks gd (bounds_of gd) blocks

/-- find_table_insertion_point from the source, expressed as a list
position: one past the last block whose bbox meets r, or the end of the
list when none does (in C that last case leaves after = NULL, and
inserting before NULL appends at the end). -/
def find_table_insertion_point (r : Rect) (blocks : List Block) : Nat :=
  blocks.enum.foldl
    (fun acc p =>
      let s := fz_intersect_rect r p.2.bbox
      if s.x0 > s.x1 ∨ s.y0 > s.y1 then acc else p.1 + 1)
    blocks.length

/-- The index scan of add_struct_block_before: walk the blocks before
the insertion point, taking index+1 at every structure block. -/
def last_struct_idx_plus (blocks : List Block) : Nat :=
  blocks.foldl
    (fun acc b =>
      match b with
      | .strukt _ _ _ i _ => i + 1
      | _ => acc)
    0

/-- The renumbering loop of add_struct_block_before: every structure
block after the insertion point is renumbered to consecutive indices
starting at idx2, stopping at the first one whose index already exceeds
the running counter. -/
def bump_indices : List Block → Nat → List Block
  | [], _ => []
  | b :: bs, idx2 =>
    match b with
    | .strukt bb t rs i ch =>
      if i > idx2 then b :: bs
      else .strukt bb t rs idx2 ch :: bump_indices bs (idx2 + 1)
    | _ => b :: bump_indices bs idx2

/-- The cell-width loop of transcribe_table: extend right from x+1 while
the cell has no drawn left divider, the divider is uncertain, and
content crosses it. -/
def cw_go (gd : gwd) (y : Nat) : Nat → Nat → Nat
  | _, 0 => 0
  | x2, fuel + 1 =>
    let c := get_cell gd.cells x2 y
    if c.v_line ≠ 0 then 0
    else if (gd.xpos.list.getD x2 g0).uncertainty = 0 then 0
    else if c.v_crossed = 0 then 0
    else 1 + cw_go gd y (x2 + 1) fuel

/-- The width of the cell at (x, y): at least 1, extended by the scan. -/
def cell_width (gd : gwd) (x y w : Nat) : Nat :=
  1 + cw_go gd y (x + 1) (w - 1 - (x + 1))

/-- The inner row-scan of the cell-height loop: check the cells
(x+1..x+cellw-1, y2) with the source's break chain, returning whether
the row completed and whether any scanned cell was h_crossed. -/
def cw_inner (gd : gwd) (y2 : Nat) : Nat → Nat → Bool × Bool
  | _, 0 => (true, false)
  | x2, fuel + 1 =>
    let c := get_cell gd.cells x2 y2
    if c.h_line ≠ 0 then (false, false)
    else if c.v_line ≠ 0 then (false, false)
    else if (gd.xpos.list.getD x2 g0).uncertainty = 0 then (false, false)
    else if c.v_crossed = 0 then (false, false)
    else
      let r := cw_inner gd y2 (x2 + 1) fuel
      (r.1, r.2 || decide (c.h_crossed ≠ 0))

/-- The cell-height loop of transcribe_table: extend down from y+1 while
the divider is uncertain, the anchor cell has no drawn top divider, the
inner scan completes, and some cell of the row is h_crossed. -/
def ch_go (gd : gwd) (x cellw : Nat) : Nat → Nat → Nat
  | _, 0 => 0
  | y2, fuel + 1 =>
    if (gd.ypos.list.getD y2 g0).uncertainty = 0 then 0
    else
      let c := get_cell gd.cells x y2
      if c.h_line ≠ 0 then 0
      else
        let inner := cw_inner gd y2 (x + 1) (cellw - 1)
        if inner.1 && (decide (c.h_crossed ≠ 0) || inner.2) then
          1 + ch_go gd x cellw (y2 + 1) fuel
        else 0

/-- The height of the cell at (x, y) of width cellw. -/
def cell_height (gd : gwd) (x y cellw h : Nat) : Nat :=
  1 + ch_go gd x cellw (y + 1) (h - 1 - (y + 1))

/-- Mark the cellw * cellh span anchored at (x, y) as sent. -/
def mark_sent (sent : Nat → Bool) (w x y cw ch : Nat) : Nat → Bool :=
  fun i =>
    ((List.range ch).any fun dy => (List.range cw).any fun dx =>
        i = (x + dx) + (y + dy) * w)
      || sent i

/-- The state threaded through the transcription loops: the sent map,
the level blocks before and after the inserted table, whether the table
block still sits in the level list (see td_cols), the accumulated table
bbox and the completed TR blocks, and the table's structure index. -/
structure TTState where
  sent : Nat → Bool
  pre : List Block
  post : List Block
  tablePresent : Bool
  tableBbox : Rect
  trs : List Block
  tblIdx : Nat

/-- The TD loop of transcribe_table for row y: skip sent cells, compute
the cell span, and move the content contained in the cell rectangle out
of the level list into the fresh TD, walking the level in order — the
blocks before the table, the in-progress table block itself, then the
blocks after it.  (In C the freshly inserted table block is part of the
source list being scanned; its bbox is the union of the completed row
rectangles, empty during the first row.  Should that bbox ever be
trivially included in a cell rectangle the C code would unlink the table
into its own grandchild, corrupting the list; the model snapshots the
table block instead.)  TD structure indices count the TDs of the row. -/
def td_cols (gd : gwd) (w h y : Nat) : Nat → Nat → List Block → TTState → List Block × TTState
  | _, 0, tds, st => (tds, st)
  | x, fuel + 1, tds, st =>
    if st.sent (x + y * w) then td_cols gd w h y (x + 1) fuel tds st
    else
      let cellw := cell_width gd x y w
      let cellh := cell_height gd x y cellw h
      let rc : Rect := ⟨(gd.xpos.list.getD x g0).pos, (gd.ypos.list.getD y g0).pos,
                        (gd.xpos.list.getD (x + cellw) g0).pos,
                        (gd.ypos.list.getD (y + cellh) g0).pos⟩
      let mvpre := move_blocks rc st.pre
      let curTable : Block := .strukt st.tableBbox .table "Table" st.tblIdx
        (st.trs ++ [.strukt fz_empty_rect .tr "TR" st.trs.length
          (tds ++ [.strukt rc .td "TD" tds.length []])])
      let mvt := if st.tablePresent then move_block rc curTable else ([], [])
      let mvpost := move_blocks rc st.post
      let td : Block := .strukt rc .td "TD" tds.length (mvpre.2 ++ mvt.2 ++ mvpost.2)
      td_cols gd w h y (x + 1) fuel (tds ++ [td])
        { st with sent := mark_sent st.sent w x y cellw cellh,
                  pre := mvpre.1, post := mvpost.1,
                  tablePresent := st.tablePresent && !mvt.1.isEmpty }

/-- The row loop of transcribe_table: rows whose cells were all sent are
skipped; otherwise a TR is created, filled by the TD loop, given the
full-width row rectangle as bbox, and unioned into the table bbox. -/
def tr_rows (gd : gwd) (w h : Nat) : Nat → Nat → TTState → TTState
  | _, 0, st => st
  | y, fuel + 1, st =>
    if (List.range (w - 1)).all fun x => st.sent (x + y * w) then
      tr_rows gd w h (y + 1) fuel st
    else
      let res := td_cols gd w h y 0 (w - 1) [] st
      let rrow : Rect := ⟨(gd.xpos.list.getD 0 g0).pos, (gd.ypos.list.getD y g0).pos,
                          (gd.xpos.list.getD (gd.xpos.list.length - 1) g0).pos,
                          (gd.ypos.list.getD (y + 1) g0).pos⟩
      let tr : Block := .strukt rrow .tr "TR" res.2.trs.length res.1
      tr_rows gd w h (y + 1) fuel
        { res.2 with trs := res.2.trs ++ [tr],
                     tableBbox := fz_union_rect res.2.tableBbox rrow }

/-- transcribe_table from the source: find the insertion point from the
grid's bounding rectangle, compute the table's structure index and
renumber the following structure blocks, run the row loop, and return
the finished Table block together with the level list with the table
inserted at the insertion point. -/
def transcribe_table (gd : gwd) (blocks : List Block) : Block × List Block :=
  let w := gd.xpos.list.length
  let h := gd.ypos.list.length
  let r : Rect := ⟨(gd.xpos.list.getD 0 g0).pos, (gd.ypos.list.getD 0 g0).pos,
                   (gd.xpos.list.getD (w - 1) g0).pos, (gd.ypos.list.getD (h - 1) g0).pos⟩
  let pos := find_table_insertion_point r blocks
  let idx := last_struct_idx_plus (blocks.take pos)
  let pre := blocks.take pos
  let post :=
    match blocks.drop pos with
    | [] => []
    | b :: bs => b :: bump_indices bs (idx + 1)
  let st := tr_rows gd w h 0 (h - 1)
    ⟨fun _ => false, pre, post, true, fz_empty_rect, [], idx⟩
  let table : Block := .strukt st.tableBbox .table "Table" idx st.trs
  (table, if st.tablePresent then st.pre ++ table :: st.post else st.pre ++ st.post)

/-- check_for_grid_lines from the source: allocate the cell matrix, walk
the vectors, erase against content, merge columns then rows, and abandon
the candidate — returning no table and the untouched level — when either
divider list has shrunk below 3 entries; otherwise transcribe. -/
def check_for_grid_lines (xps yps : GridPositions) (blocks : List Block) :
    Option Block × List Block :=
  let gd0 : gwd := ⟨new_cells xps.list.length yps.list.length, xps, yps⟩
  let gd1 := walk_grid_lines gd0 blocks
  let gd2 := erase_grid_lines gd1 blocks
  let gd3 := merge_columns gd2
  let gd4 := merge_rows gd3
  if gd4.xpos.list.length < 3 ∨ gd4.ypos.list.length < 3 then (none, blocks)
  else
    let tt := transcribe_table gd4 blocks
    (some tt.1, tt.2)

/-- C7: when, after column and row merging, either divider list holds
fewer than 3 entries, the candidate table is abandoned:
check_for_grid_lines produces no Table (hence no TR or TD, which only
transcribe_table creates), and the level's block list is returned
unchanged — the preceding walk, erase and merge stages only read it. -/
theorem check_for_grid_lines_abandons (xps yps : GridPositions) (blocks : List Block)
    (hsmall :
      (merge_rows (merge_columns (erase_grid_lines
          (walk_grid_lines ⟨new_cells xps.list.length yps.list.length, xps, yps⟩ blocks)
          blocks))).xpos.list.length < 3 ∨
      (merge_rows (merge_columns (erase_grid_lines
          (walk_grid_lines ⟨new_cells xps.list.length yps.list.length, xps, yps⟩ blocks)
          blocks))).ypos.list.length < 3) :
    check_for_grid_lines xps yps blocks = (none, blocks) := by
  unfold check_for_grid_lines
  dsimp only
  rw [if_pos hsmall]

lemma walk_grid_lines_nil (gd : gwd) : walk_grid_lines gd [] = gd := by
  rw [walk_grid_lines]

lemma erase_blocks_nil (gd : gwd) (bounds : Rect) : erase_blocks gd bounds [] = gd := by
  rw [erase_blocks]

/-- C7 witness: an empty level with empty divider lists trips the guard
and is left unchanged. -/
theorem check_for_grid_lines_abandons_witness :
    ((merge_rows (merge_columns (erase_grid_lines
        (walk_grid_lines ⟨new_cells ((⟨[], 0⟩ : GridPositions)).list.length
            ((⟨[], 0⟩ : GridPositions)).list.length, ⟨[], 0⟩, ⟨[], 0⟩⟩ [])
        []))).xpos.list.length < 3 ∨
      (merge_rows (merge_columns (erase_grid_lines
        (walk_grid_lines ⟨new_cells ((⟨[], 0⟩ : GridPositions)).list.length
            ((⟨[], 0⟩ : GridPositions)).list.length, ⟨[], 0⟩, ⟨[], 0⟩⟩ [])
        []))).ypos.list.length < 3) ∧
    check_for_grid_lines ⟨[], 0⟩ ⟨[], 0⟩ [] = (none, []) := by
  have hsmall : (merge_rows (merge_columns (erase_grid_lines
      (walk_grid_lines ⟨new_cells ((⟨[], 0⟩ : GridPositions)).list.length
          ((⟨[], 0⟩ : GridPositions)).list.length, ⟨[], 0⟩, ⟨[], 0⟩⟩ [])
      []))).xpos.list.length < 3 ∨
      (merge_rows (merge_columns (erase_grid_lines
      (walk_grid_lines ⟨new_cells ((⟨[], 0⟩ : GridPositions)).list.length
          ((⟨[], 0⟩ : GridPositions)).list.length, ⟨[], 0⟩, ⟨[], 0⟩⟩ [])
      []))).ypos.list.length < 3 := by
    left
    rw [walk_grid_lines_nil]
    unfold erase_grid_lines
    rw [erase_blocks_nil]
    simp [merge_rows, merge_columns, merge_rows_go, merge_columns_go, new_cells]
  exact ⟨hsmall, check_for_grid_lines_abandons ⟨[], 0⟩ ⟨[], 0⟩ [] hsmall⟩

end StextTable
